import Mathlib

/-!
# Verification of the maze-runner repository

Shallow embedding of the maze data model, runner transitions, left-hand-rule
exploration, and the two shortest-path searches (BFS in the basic module,
A* in the extension module), together with proofs of the specification claims.

Conventions of the embedding:
* Python integers are modelled by `Int`; cells are pairs `(x, y)`.
* The wall sets are modelled by lists of pairs (only membership is ever used,
  so duplicates and order are irrelevant).
* Functions that can raise (`ValueError`, `KeyError`) return `Option`/`none`
  for the raising branch.
* Python `while` loops are modelled by fuel recursion; `none` models a run
  that does not terminate within the (provably sufficient) fuel.
* `(idx - 1) % 4` in Python, with `idx ∈ {0,1,2,3}`, equals `(idx + 3) % 4`
  because Python's `%` returns nonnegative values; the embedding uses the
  latter form on `Nat`.
-/

set_option maxHeartbeats 1600000

namespace MazeRunner

/-- A cell position `(x, y)` with Python-integer coordinates. -/
abbrev Cell := Int × Int

/-- The maze data: `width`, `height`, and the two internal wall sets
(`_horizontal_walls`, `_vertical_walls`).  This structure and all methods
below are textually identical in `basic/maze.py` and `extension/maze.py`
except for `_get_neighbours` and `shortest_path`, which get one definition
per module. -/
structure Maze where
  width : Int
  height : Int
  horizontal_walls : List (Int × Int)
  vertical_walls : List (Int × Int)

/-- `Maze.get_walls`: walls around `(x, y)` in the order
`(north, east, south, west)`: the implicit boundary walls, or-ed with the
matching internal entries. -/
def Maze.get_walls (m : Maze) (x y : Int) : Bool × Bool × Bool × Bool :=
  let north := decide (y = m.height - 1) || decide ((x, y + 1) ∈ m.horizontal_walls)
  let south := decide (y = 0) || decide ((x, y) ∈ m.horizontal_walls)
  let west := decide (x = 0) || decide ((y, x) ∈ m.vertical_walls)
  let east := decide (x = m.width - 1) || decide ((y, x + 1) ∈ m.vertical_walls)
  (north, east, south, west)

/-- The four compass orientations `"N"`, `"E"`, `"S"`, `"W"` of the runner.
The source keeps them as strings drawn from the list `["N","E","S","W"]`;
per the spec's data model a runner's orientation is always one of the four. -/
inductive Orientation where
  | N
  | E
  | S
  | W
deriving DecidableEq

/-- Position of an orientation in the source list `["N", "E", "S", "W"]`. -/
def Orientation.index : Orientation → Nat
  | .N => 0
  | .E => 1
  | .S => 2
  | .W => 3

/-- Indexing into the source list `["N", "E", "S", "W"]` (total, as the
source only ever indexes with `i % 4`). -/
def orientationOfIndex : Nat → Orientation
  | 0 => .N
  | 1 => .E
  | 2 => .S
  | _ => .W

/-- A runner state: the dict `{"x": .., "y": .., "orientation": ..}`. -/
structure Runner where
  x : Int
  y : Int
  orientation : Orientation
deriving DecidableEq

/-- `runner.create_runner` from `extension/runner.py`. -/
def create_runner (x : Int := 0) (y : Int := 0)
    (orientation : Orientation := .N) : Runner :=
  { x := x, y := y, orientation := orientation }

/-- `runner.turn` from `extension/runner.py`.  Note the source's `else`
branch: an unrecognised direction keeps the current orientation and the
runner is returned unchanged (no exception is raised there). -/
def Runner.turn (runner : Runner) (direction : String) : Runner :=
  let idx := runner.orientation.index
  if direction = "Left" then
    { runner with orientation := orientationOfIndex ((idx + 3) % 4) }
  else if direction = "Right" then
    { runner with orientation := orientationOfIndex ((idx + 1) % 4) }
  else
    runner

/-- The per-orientation deltas dict of `runner.forward`:
`{"N": (0, 1), "E": (1, 0), "S": (0, -1), "W": (-1, 0)}`. -/
def deltas : Orientation → Int × Int
  | .N => (0, 1)
  | .E => (1, 0)
  | .S => (0, -1)
  | .W => (-1, 0)

/-- `runner.forward` from `extension/runner.py`: unconditional translation
by one cell in the facing direction (it consults no maze and never fails). -/
def Runner.forward (runner : Runner) : Runner :=
  let d := deltas runner.orientation
  { runner with x := runner.x + d.1, y := runner.y + d.2 }

/-- The `side_map` dict of `sense_walls`: for each orientation the indices
of (left, front, right) into the `(north, east, south, west)` tuple. -/
def side_map : Orientation → Nat × Nat × Nat
  | .N => (3, 0, 1)
  | .E => (0, 1, 2)
  | .S => (1, 2, 3)
  | .W => (2, 3, 0)

/-- Tuple indexing `walls[i]` for the 4-tuple returned by `get_walls`. -/
def wallAt (walls : Bool × Bool × Bool × Bool) : Nat → Bool
  | 0 => walls.1
  | 1 => walls.2.1
  | 2 => walls.2.2.1
  | _ => walls.2.2.2

/-- `Maze.sense_walls`: the `(left, front, right)` walls relative to the
runner's orientation. -/
def Maze.sense_walls (m : Maze) (runner : Runner) : Bool × Bool × Bool :=
  let walls := m.get_walls runner.x runner.y
  let idx := side_map runner.orientation
  (wallAt walls idx.1, wallAt walls idx.2.1, wallAt walls idx.2.2)

/-- `Maze.go_straight`: one forward step; raises (`none`) when the front
wall is present. -/
def Maze.go_straight (m : Maze) (runner : Runner) : Option Runner :=
  let s := m.sense_walls runner
  if s.2.1 then none
  else some (match runner.orientation with
    | .N => { runner with y := runner.y + 1 }
    | .S => { runner with y := runner.y - 1 }
    | .E => { runner with x := runner.x + 1 }
    | .W => { runner with x := runner.x - 1 })

/-- `Maze._turn` (both modules): turn left or right; raises (`none`) for
any other direction string. -/
def Maze.turnLR (_m : Maze) (runner : Runner) (direction : String) :
    Option Runner :=
  let idx := runner.orientation.index
  if direction = "Left" then
    some { runner with orientation := orientationOfIndex ((idx + 3) % 4) }
  else if direction = "Right" then
    some { runner with orientation := orientationOfIndex ((idx + 1) % 4) }
  else
    none

/-- The `opposite` dict of `Maze.move`: `{"N": "S", "S": "N", "E": "W", "W": "E"}`. -/
def oppositeOf : Orientation → Orientation
  | .N => .S
  | .S => .N
  | .E => .W
  | .W => .E

/-- `Maze.move` (both modules): the left-hand-rule step.  Try left, then
straight, then right (each a turn followed by `go_straight`), else step
backward with flipped orientation and no wall check.  Failures of the
called `_turn`/`go_straight` propagate as `none`. -/
def Maze.move (m : Maze) (runner : Runner) : Option (Runner × String) :=
  let s := m.sense_walls runner
  if !s.1 then
    match m.turnLR runner "Left" with
    | none => none
    | some turned =>
      match m.go_straight turned with
      | none => none
      | some r2 => some (r2, "LF")
  else if !s.2.1 then
    match m.go_straight runner with
    | none => none
    | some r2 => some (r2, "F")
  else if !s.2.2 then
    match m.turnLR runner "Right" with
    | none => none
    | some turned =>
      match m.go_straight turned with
      | none => none
      | some r2 => some (r2, "RF")
  else
    let opposite := oppositeOf runner.orientation
    some (match runner.orientation with
      | .N => { runner with y := runner.y - 1, orientation := opposite }
      | .S => { runner with y := runner.y + 1, orientation := opposite }
      | .E => { runner with x := runner.x - 1, orientation := opposite }
      | .W => { runner with x := runner.x + 1, orientation := opposite },
      "B")

/-- `Maze.explore` (both modules): repeat `move` until the goal is reached,
logging `(pre-move x, pre-move y, action)` per step.  The source's `while`
loop is modelled with fuel; `none` models a run that has not reached the
goal within the fuel. -/
def Maze.exploreFuel (m : Maze) : Nat → Runner → Cell →
    Option (List (Int × Int × String))
  | 0, runner, goal => if (runner.x, runner.y) = goal then some [] else none
  | fuel + 1, runner, goal =>
    if (runner.x, runner.y) = goal then some []
    else
      match m.move runner with
      | none => none
      | some (r2, actions) =>
        match m.exploreFuel fuel r2 goal with
        | none => none
        | some log => some ((runner.x, runner.y, actions) :: log)

/-- `Maze._get_neighbours` from `basic/maze.py`: open directions, each
additionally bound-checked against the grid ranges, in the order
north, east, south, west. -/
def Maze.get_neighbours_basic (m : Maze) (x y : Int) : List Cell :=
  let w := m.get_walls x y
  (if !w.1 && y + 1 < m.height then [(x, y + 1)] else []) ++
  (if !w.2.1 && x + 1 < m.width then [(x + 1, y)] else []) ++
  (if !w.2.2.1 && y - 1 ≥ 0 then [(x, y - 1)] else []) ++
  (if !w.2.2.2 && x - 1 ≥ 0 then [(x - 1, y)] else [])

/-- `Maze._get_neighbours` from `extension/maze.py`: open directions with
no bound check, in the order north, east, south, west. -/
def Maze.get_neighbours_ext (m : Maze) (x y : Int) : List Cell :=
  let w := m.get_walls x y
  (if !w.1 then [(x, y + 1)] else []) ++
  (if !w.2.1 then [(x + 1, y)] else []) ++
  (if !w.2.2.1 then [(x, y - 1)] else []) ++
  (if !w.2.2.2 then [(x - 1, y)] else [])

/-- First-match association-list lookup, modelling Python dict indexing
(`d[k]`, `k in d`); insertion is modelled by consing, so the newest binding
wins, matching dict overwrite. -/
def alook {β : Type} : List (Cell × β) → Cell → Option β
  | [], _ => none
  | p :: rest, c => if p.1 = c then some p.2 else alook rest c

/-- Walking the `parent` map backward from `node` until `start`, building
the list `[node, ..., start]` (the Python loop builds exactly this list and
then reverses it).  A missing key models the `KeyError`; fuel models
non-termination of the `while`. -/
def parentChain (parent : List (Cell × Cell)) (start : Cell) :
    Nat → Cell → Option (List Cell)
  | 0, node => if node = start then some [start] else none
  | fuel + 1, node =>
    if node = start then some [start]
    else
      match alook parent node with
      | none => none
      | some p =>
        match parentChain parent start fuel p with
        | none => none
        | some path => some (node :: path)

/-- One BFS expansion of `current`: for each neighbour not yet visited,
mark visited, record parent, and append to the queue (the Python `for`
loop body). -/
def bfsStep (current : Cell)
    (acc : List Cell × List Cell × List (Cell × Cell)) (n : Cell) :
    List Cell × List Cell × List (Cell × Cell) :=
  if n ∈ acc.2.1 then acc
  else (acc.1 ++ [n], n :: acc.2.1, (n, current) :: acc.2.2)

/-- The BFS `while queue:` loop of `basic/maze.py`'s `shortest_path`.
Returns `(found, parent)`; `none` models fuel exhaustion. -/
def Maze.bfsLoop (m : Maze) (target : Cell) :
    Nat → List Cell → List Cell → List (Cell × Cell) →
    Option (Bool × List (Cell × Cell))
  | 0, queue, _, parent => if queue = [] then some (false, parent) else none
  | fuel + 1, queue, visited, parent =>
    match queue with
    | [] => some (false, parent)
    | current :: rest =>
      if current = target then some (true, parent)
      else
        let res := (m.get_neighbours_basic current.1 current.2).foldl
          (bfsStep current) (rest, visited, parent)
        m.bfsLoop target fuel res.1 res.2.1 res.2.2

/-- Fuel that provably suffices for the BFS loop from an in-range start. -/
def Maze.bfsFuel (m : Maze) : Nat :=
  2 * (m.width.toNat * m.height.toNat) + 2

/-- `Maze.shortest_path` from `basic/maze.py` (breadth-first search), with
explicit start and goal (the Python defaults merely fill in `(0, 0)` and
`(width-1, height-1)` for omitted arguments). -/
def Maze.shortest_path_basic (m : Maze) (starting goal : Cell) :
    Option (List Cell) :=
  match m.bfsLoop goal m.bfsFuel [starting] [starting] [] with
  | none => none
  | some (found, parent) =>
    if !found then some []
    else
      match parentChain parent starting m.bfsFuel goal with
      | none => none
      | some path => some path.reverse

/-- The Manhattan-distance heuristic `h` of `extension/maze.py`
(`abs(a[0]-b[0]) + abs(a[1]-b[1])`, a nonnegative integer). -/
def manhattan (a b : Cell) : Nat :=
  (a.1 - b.1).natAbs + (a.2 - b.2).natAbs

/-- Priority-queue entry `(f_cost, node)` of the A* implementation. -/
abbrev AEntry := Nat × Cell

/-- The strict lexicographic order on `(f_cost, (x, y))` used by Python's
tuple comparison inside `heapq`. -/
def pqLt (a b : AEntry) : Bool :=
  a.1 < b.1 ||
    (a.1 = b.1 && (a.2.1 < b.2.1 || (a.2.1 = b.2.1 && a.2.2 < b.2.2)))

/-- Least entry of `e :: l` under `pqLt` (earliest among equals). -/
def pqMin (e : AEntry) (l : List AEntry) : AEntry :=
  l.foldl (fun acc x => if pqLt x acc then x else acc) e

/-- Remove the first occurrence of `v`. -/
def removeOne (v : AEntry) : List AEntry → List AEntry
  | [] => []
  | x :: rest => if x = v then rest else x :: removeOne v rest

/-- `heapq.heappop` on the multiset of entries: returns the least entry
under the lexicographic tuple order and the remaining entries.  (A binary
heap pops exactly the minimal tuple value; among equal tuple values the
occurrences are indistinguishable.) -/
def heappop (l : List AEntry) : Option (AEntry × List AEntry) :=
  match l with
  | [] => none
  | e :: rest =>
    let v := pqMin e rest
    some (v, removeOne v l)

/-- One A* relaxation of neighbour `n` from `current` whose g-cost is `gc`
(the body of the `for` loop): if `n` is unseen or strictly improved, update
`g_cost` and `parent` and push `(tentative_g + h(n, target), n)`. -/
def astarStep (target current : Cell) (gc : Nat)
    (acc : List AEntry × List (Cell × Nat) × List (Cell × Cell)) (n : Cell) :
    List AEntry × List (Cell × Nat) × List (Cell × Cell) :=
  let tentative := gc + 1
  let improved :=
    match alook acc.2.1 n with
    | none => true
    | some gn => tentative < gn
  if improved then
    ((tentative + manhattan n target, n) :: acc.1,
     (n, tentative) :: acc.2.1,
     (n, current) :: acc.2.2)
  else acc

/-- The A* `while open_set:` loop of `extension/maze.py`'s `shortest_path`.
Returns the final `(g_cost, parent)` (on break at the target or on queue
exhaustion); `none` models fuel exhaustion or the impossible
`g_cost[current]` `KeyError`. -/
def Maze.astarLoop (m : Maze) (target : Cell) :
    Nat → List AEntry → List (Cell × Nat) → List (Cell × Cell) →
    Option (List (Cell × Nat) × List (Cell × Cell))
  | 0, open_set, g_cost, parent =>
    if open_set = [] then some (g_cost, parent) else none
  | fuel + 1, open_set, g_cost, parent =>
    match heappop open_set with
    | none => some (g_cost, parent)
    | some ((_, current), rest) =>
      if current = target then some (g_cost, parent)
      else
        match alook g_cost current with
        | none => none
        | some gc =>
          let res := (m.get_neighbours_ext current.1 current.2).foldl
            (astarStep target current gc) (rest, g_cost, parent)
          m.astarLoop target fuel res.1 res.2.1 res.2.2

/-- Fuel that provably suffices for the A* loop from an in-range start. -/
def Maze.astarFuel (m : Maze) : Nat :=
  m.width.toNat * m.height.toNat * (m.width.toNat * m.height.toNat) +
    m.width.toNat * m.height.toNat + 3

/-- `Maze.shortest_path` from `extension/maze.py` (A* with the Manhattan
heuristic), with explicit start and goal. -/
def Maze.shortest_path_ext (m : Maze) (starting goal : Cell) :
    Option (List Cell) :=
  match m.astarLoop goal m.astarFuel [(0, starting)] [(starting, 0)] [] with
  | none => none
  | some (g_cost, parent) =>
    match alook g_cost goal with
    | none => some []
    | some _ =>
      match parentChain parent starting m.astarFuel goal with
      | none => none
      | some path => some path.reverse

/-! ## Basic facts about cells, walls and adjacency -/

/-- A cell of the grid proper (the spec's `Cell` data type):
`0 ≤ x < width` and `0 ≤ y < height`. -/
def inRange (m : Maze) (c : Cell) : Prop :=
  0 ≤ c.1 ∧ c.1 < m.width ∧ 0 ≤ c.2 ∧ c.2 < m.height

instance (m : Maze) (c : Cell) : Decidable (inRange m c) := by
  unfold inRange; infer_instance

/-- The wall-free adjacency used by the extension module's search and by
the specification claims: `n` is a neighbour of `c` reachable without
crossing a wall. -/
def nbrs (m : Maze) (c : Cell) : List Cell :=
  m.get_neighbours_ext c.1 c.2

/-- Explicit characterisation of wall-free adjacency. -/
theorem mem_nbrs {m : Maze} {c n : Cell} :
    n ∈ nbrs m c ↔
      (¬(c.2 = m.height - 1 ∨ (c.1, c.2 + 1) ∈ m.horizontal_walls) ∧
        n = (c.1, c.2 + 1)) ∨
      (¬(c.1 = m.width - 1 ∨ (c.2, c.1 + 1) ∈ m.vertical_walls) ∧
        n = (c.1 + 1, c.2)) ∨
      (¬(c.2 = 0 ∨ (c.1, c.2) ∈ m.horizontal_walls) ∧ n = (c.1, c.2 - 1)) ∨
      (¬(c.1 = 0 ∨ (c.2, c.1) ∈ m.vertical_walls) ∧ n = (c.1 - 1, c.2)) := by
  simp only [nbrs, Maze.get_neighbours_ext, Maze.get_walls, List.mem_append]
  split_ifs <;> simp_all [not_or, List.mem_singleton] <;> tauto

/-- The implicit boundary walls keep wall-free adjacency inside the grid:
a neighbour of an in-range cell is in range. -/
theorem nbrs_inRange {m : Maze} {c n : Cell} (hc : inRange m c)
    (hn : n ∈ nbrs m c) : inRange m n := by
  obtain ⟨hx0, hxw, hy0, hyh⟩ := hc
  rcases mem_nbrs.mp hn with ⟨h, rfl⟩ | ⟨h, rfl⟩ | ⟨h, rfl⟩ | ⟨h, rfl⟩ <;>
    rw [not_or] at h <;>
    exact ⟨by omega, by omega, by omega, by omega⟩

/-- Wall-free adjacency is symmetric at in-range cells (a stored wall entry
blocks both directions, and the boundary cases degenerate in range). -/
theorem nbrs_symm {m : Maze} {c n : Cell} (hc : inRange m c)
    (hn : n ∈ nbrs m c) : c ∈ nbrs m n := by
  obtain ⟨hx0, hxw, hy0, hyh⟩ := hc
  rcases mem_nbrs.mp hn with ⟨h, rfl⟩ | ⟨h, rfl⟩ | ⟨h, rfl⟩ | ⟨h, rfl⟩ <;>
    rw [not_or] at h <;> rw [mem_nbrs]
  · refine Or.inr (Or.inr (Or.inl ⟨?_, ?_⟩)) <;> simp_all <;> omega
  · refine Or.inr (Or.inr (Or.inr ⟨?_, ?_⟩)) <;> simp_all <;> omega
  · refine Or.inl ⟨?_, ?_⟩ <;> simp_all <;> omega
  · refine Or.inr (Or.inl ⟨?_, ?_⟩) <;> simp_all <;> omega

/-- Adjacent cells are at Manhattan distance 1. -/
theorem manhattan_nbrs {m : Maze} {c n : Cell} (hn : n ∈ nbrs m c) :
    manhattan c n = 1 := by
  rcases mem_nbrs.mp hn with ⟨_, rfl⟩ | ⟨_, rfl⟩ | ⟨_, rfl⟩ | ⟨_, rfl⟩ <;>
    simp [manhattan] <;> omega

theorem manhattan_self (c : Cell) : manhattan c c = 0 := by
  simp [manhattan]

theorem manhattan_triangle (a b c : Cell) :
    manhattan a c ≤ manhattan a b + manhattan b c := by
  unfold manhattan
  omega

/-! ## Walks and graph distance -/

/-- `reachN m n s t`: there is a wall-free walk of exactly `n` steps from
`s` to `t`. -/
def reachN (m : Maze) : Nat → Cell → Cell → Prop
  | 0, s, t => s = t
  | n + 1, s, t => ∃ u ∈ nbrs m s, reachN m n u t

instance reachN.decidable (m : Maze) : ∀ (n : Nat) (s t : Cell),
    Decidable (reachN m n s t)
  | 0, _, _ => by unfold reachN; infer_instance
  | n + 1, s, t => by
    unfold reachN
    have := reachN.decidable m n
    exact List.decidableBEx _ _

theorem reachN_zero {m : Maze} {s t : Cell} : reachN m 0 s t ↔ s = t :=
  Iff.rfl

theorem reachN_succ {m : Maze} {n : Nat} {s t : Cell} :
    reachN m (n + 1) s t ↔ ∃ u ∈ nbrs m s, reachN m n u t :=
  Iff.rfl

theorem reachN.trans {m : Maze} {a b : Nat} {s u t : Cell}
    (h1 : reachN m a s u) (h2 : reachN m b u t) : reachN m (a + b) s t := by
  induction a generalizing s with
  | zero => rw [reachN_zero] at h1; subst h1; simpa using h2
  | succ k ih =>
    obtain ⟨v, hv, hr⟩ := h1
    have h3 : reachN m (k + b + 1) s t := reachN_succ.mpr ⟨v, hv, ih hr⟩
    have he : k + 1 + b = k + b + 1 := by omega
    rwa [he]

theorem reachN_inRange {m : Maze} {n : Nat} {s t : Cell}
    (hs : inRange m s) (h : reachN m n s t) : inRange m t := by
  induction n generalizing s with
  | zero => rw [reachN_zero] at h; subst h; exact hs
  | succ k ih =>
    obtain ⟨u, hu, hr⟩ := h
    exact ih (nbrs_inRange hs hu) hr

/-- The Manhattan heuristic is admissible: it never exceeds the length of
any actual walk. -/
theorem reachN_manhattan {m : Maze} {n : Nat} {s t : Cell}
    (h : reachN m n s t) : manhattan s t ≤ n := by
  induction n generalizing s with
  | zero => rw [reachN_zero] at h; subst h; simp [manhattan_self]
  | succ k ih =>
    obtain ⟨u, hu, hr⟩ := h
    calc manhattan s t ≤ manhattan s u + manhattan u t :=
          manhattan_triangle s u t
      _ ≤ 1 + k := by
          have := manhattan_nbrs hu
          have := ih hr
          omega
      _ = k + 1 := Nat.add_comm 1 k

/-- `minReach m s t n`: the graph distance from `s` to `t` is exactly `n`. -/
def minReach (m : Maze) (s t : Cell) (n : Nat) : Prop :=
  reachN m n s t ∧ ∀ k, reachN m k s t → n ≤ k

theorem minReach_self (m : Maze) (s : Cell) : minReach m s s 0 :=
  ⟨rfl, fun _ _ => Nat.zero_le _⟩

theorem minReach_unique {m : Maze} {s t : Cell} {a b : Nat}
    (ha : minReach m s t a) (hb : minReach m s t b) : a = b :=
  Nat.le_antisymm (ha.2 b hb.1) (hb.2 a ha.1)

theorem minReach_zero {m : Maze} {s t : Cell} (h : minReach m s t 0) :
    s = t := h.1

/-- Every reachable cell has a well-defined graph distance. -/
theorem exists_minReach {m : Maze} {s t : Cell} {n : Nat}
    (h : reachN m n s t) : ∃ d, minReach m s t d ∧ d ≤ n := by
  classical
  have hex : ∃ k, reachN m k s t := ⟨n, h⟩
  refine ⟨Nat.find hex, ⟨Nat.find_spec hex, fun k hk => Nat.find_min' hex hk⟩,
    Nat.find_min' hex h⟩

/-- Stepping along a shortest walk: if `y` is at distance `a`, an edge
`y → u` continues a shortest walk to `z` (of total length `a + b + 1`),
then `u` is at distance exactly `a + 1`. -/
theorem minReach_step {m : Maze} {s y u z : Cell} {a b n : Nat}
    (hy : minReach m s y a) (hu : u ∈ nbrs m y) (hz : reachN m b u z)
    (hn : minReach m s z n) (hsum : a + b + 1 = n) :
    minReach m s u (a + 1) := by
  refine ⟨?_, ?_⟩
  · have : reachN m 1 y u := ⟨u, hu, rfl⟩
    simpa using hy.1.trans this
  · intro k hk
    have : reachN m (k + b) s z := hk.trans hz
    have := hn.2 _ this
    omega

/-! ## Paths as cell sequences -/

/-- The claims' notion of a path: an ordered, nonempty sequence of cells
beginning at `s`, ending at `t`, every consecutive pair wall-free
adjacent. -/
def ValidPath (m : Maze) (s t : Cell) (p : List Cell) : Prop :=
  p.head? = some s ∧ p.getLast? = some t ∧
    List.Chain' (fun a b => b ∈ nbrs m a) p

instance (m : Maze) (s t : Cell) (p : List Cell) :
    Decidable (ValidPath m s t p) :=
  inferInstanceAs (Decidable (p.head? = some s ∧ p.getLast? = some t ∧
    List.Chain' (fun a b => b ∈ nbrs m a) p))

theorem chain'_reachN {m : Maze} :
    ∀ (q : List Cell) (a t : Cell),
      List.Chain' (fun x y => y ∈ nbrs m x) (a :: q) →
      (a :: q).getLast? = some t → reachN m q.length a t := by
  intro q
  induction q with
  | nil =>
    intro a t _ hl
    simp only [List.getLast?_singleton, Option.some_inj] at hl
    subst hl
    rfl
  | cons b q' ih =>
    intro a t hc hl
    rw [List.chain'_cons] at hc
    rw [List.getLast?_cons_cons] at hl
    exact reachN_succ.mpr ⟨b, hc.1, ih b t hc.2 hl⟩

theorem ValidPath.reachN {m : Maze} {s t : Cell} {p : List Cell}
    (h : ValidPath m s t p) : MazeRunner.reachN m (p.length - 1) s t := by
  obtain ⟨hh, hl, hc⟩ := h
  match p, hh with
  | a :: q, hh =>
    simp only [List.head?_cons, Option.some_inj] at hh
    subst hh
    simpa using chain'_reachN q a t hc hl

theorem reachN_validPath {m : Maze} {n : Nat} {s t : Cell}
    (h : reachN m n s t) : ∃ p, ValidPath m s t p ∧ p.length = n + 1 := by
  induction n generalizing s with
  | zero =>
    rw [reachN_zero] at h; subst h
    exact ⟨[s], ⟨rfl, rfl, by simp⟩, rfl⟩
  | succ k ih =>
    obtain ⟨u, hu, hr⟩ := h
    obtain ⟨p, ⟨hh, hl, hc⟩, hlen⟩ := ih hr
    match p, hh with
    | b :: q, hh2 =>
      simp only [List.head?_cons, Option.some_inj] at hh2
      subst hh2
      refine ⟨s :: b :: q, ⟨rfl, by simpa using hl, ?_⟩, by simpa using hlen⟩
      rw [List.chain'_cons]
      exact ⟨hu, hc⟩

/-- A valid path can be no shorter than graph distance + 1 cells. -/
theorem ValidPath.length_ge {m : Maze} {s t : Cell} {p : List Cell} {n : Nat}
    (h : ValidPath m s t p) (hd : minReach m s t n) : n + 1 ≤ p.length := by
  have h1 := h.reachN
  have h2 := hd.2 _ h1
  have : p ≠ [] := by
    intro hnil
    rw [hnil] at h
    simp [ValidPath] at h
  have := List.length_pos.mpr this
  omega

/-! ## Runner-relative directions -/

/-- One step backward in the cycle `N→E→S→W→N` (the effect of turning
`"Left"`). -/
def leftOf : Orientation → Orientation
  | .N => .W
  | .W => .S
  | .S => .E
  | .E => .N

/-- One step forward in the cycle `N→E→S→W→N` (the effect of turning
`"Right"`). -/
def rightOf : Orientation → Orientation
  | .N => .E
  | .E => .S
  | .S => .W
  | .W => .N

/-- The absolute wall of `get_walls` lying in compass direction `o`. -/
def wallInDir (m : Maze) (c : Cell) : Orientation → Bool
  | .N => (m.get_walls c.1 c.2).1
  | .E => (m.get_walls c.1 c.2).2.1
  | .S => (m.get_walls c.1 c.2).2.2.1
  | .W => (m.get_walls c.1 c.2).2.2.2

/-- The cell one step from `c` in compass direction `o`. -/
def cellInDir (c : Cell) (o : Orientation) : Cell :=
  (c.1 + (deltas o).1, c.2 + (deltas o).2)

theorem turnLR_left (m : Maze) (r : Runner) :
    m.turnLR r "Left" = some { r with orientation := leftOf r.orientation } := by
  cases h : r.orientation <;>
    simp [Maze.turnLR, Orientation.index, orientationOfIndex, leftOf, h]

theorem turnLR_right (m : Maze) (r : Runner) :
    m.turnLR r "Right" = some { r with orientation := rightOf r.orientation } := by
  cases h : r.orientation <;>
    simp [Maze.turnLR, Orientation.index, orientationOfIndex, rightOf, h]

theorem turnLR_other (m : Maze) (r : Runner) (d : String)
    (h1 : d ≠ "Left") (h2 : d ≠ "Right") : m.turnLR r d = none := by
  simp [Maze.turnLR, h1, h2]

theorem runner_turn_left (r : Runner) :
    r.turn "Left" = { r with orientation := leftOf r.orientation } := by
  cases h : r.orientation <;>
    simp [Runner.turn, Orientation.index, orientationOfIndex, leftOf, h]

theorem runner_turn_right (r : Runner) :
    r.turn "Right" = { r with orientation := rightOf r.orientation } := by
  cases h : r.orientation <;>
    simp [Runner.turn, Orientation.index, orientationOfIndex, rightOf, h]

theorem runner_turn_other (r : Runner) (d : String)
    (h1 : d ≠ "Left") (h2 : d ≠ "Right") : r.turn d = r := by
  simp [Runner.turn, h1, h2]

/-- `sense_walls` maps the absolute walls through the fixed per-orientation
permutation: left, front, right are the walls toward `leftOf o`, `o`,
`rightOf o`. -/
theorem sense_walls_eq (m : Maze) (r : Runner) :
    m.sense_walls r =
      (wallInDir m (r.x, r.y) (leftOf r.orientation),
       wallInDir m (r.x, r.y) r.orientation,
       wallInDir m (r.x, r.y) (rightOf r.orientation)) := by
  cases h : r.orientation <;>
    simp [Maze.sense_walls, side_map, wallAt, wallInDir, leftOf, rightOf, h]

theorem go_straight_eq (m : Maze) (r : Runner) :
    m.go_straight r =
      if wallInDir m (r.x, r.y) r.orientation then none
      else some { r with x := r.x + (deltas r.orientation).1,
                         y := r.y + (deltas r.orientation).2 } := by
  cases h : r.orientation <;>
    simp [Maze.go_straight, sense_walls_eq, deltas, h] <;>
    split <;> rfl

theorem wallInDir_north (m : Maze) (c : Cell) :
    wallInDir m c .N = false ↔
      ¬(c.2 = m.height - 1 ∨ (c.1, c.2 + 1) ∈ m.horizontal_walls) := by
  simp [wallInDir, Maze.get_walls, not_or]

theorem wallInDir_east (m : Maze) (c : Cell) :
    wallInDir m c .E = false ↔
      ¬(c.1 = m.width - 1 ∨ (c.2, c.1 + 1) ∈ m.vertical_walls) := by
  simp [wallInDir, Maze.get_walls, not_or]

theorem wallInDir_south (m : Maze) (c : Cell) :
    wallInDir m c .S = false ↔
      ¬(c.2 = 0 ∨ (c.1, c.2) ∈ m.horizontal_walls) := by
  simp [wallInDir, Maze.get_walls, not_or]

theorem wallInDir_west (m : Maze) (c : Cell) :
    wallInDir m c .W = false ↔
      ¬(c.1 = 0 ∨ (c.2, c.1) ∈ m.vertical_walls) := by
  simp [wallInDir, Maze.get_walls, not_or]

theorem cellInDir_north (c : Cell) : cellInDir c .N = (c.1, c.2 + 1) := by
  simp [cellInDir, deltas]

theorem cellInDir_east (c : Cell) : cellInDir c .E = (c.1 + 1, c.2) := by
  simp [cellInDir, deltas]

theorem cellInDir_south (c : Cell) : cellInDir c .S = (c.1, c.2 - 1) := by
  simp [cellInDir, deltas]
  omega

theorem cellInDir_west (c : Cell) : cellInDir c .W = (c.1 - 1, c.2) := by
  simp [cellInDir, deltas]
  omega

/-- Membership in the neighbour list, by compass direction. -/
theorem mem_nbrs_dir {m : Maze} {c : Cell} (o : Orientation) :
    cellInDir c o ∈ nbrs m c ↔ wallInDir m c o = false := by
  cases o
  · rw [cellInDir_north, mem_nbrs, wallInDir_north]
    constructor
    · rintro (⟨h, he⟩ | ⟨h, he⟩ | ⟨h, he⟩ | ⟨h, he⟩) <;>
        first
          | exact h
          | (exfalso; rw [Prod.mk.injEq] at he; omega)
    · intro h
      exact Or.inl ⟨h, rfl⟩
  · rw [cellInDir_east, mem_nbrs, wallInDir_east]
    constructor
    · rintro (⟨h, he⟩ | ⟨h, he⟩ | ⟨h, he⟩ | ⟨h, he⟩) <;>
        first
          | exact h
          | (exfalso; rw [Prod.mk.injEq] at he; omega)
    · intro h
      exact Or.inr (Or.inl ⟨h, rfl⟩)
  · rw [cellInDir_south, mem_nbrs, wallInDir_south]
    constructor
    · rintro (⟨h, he⟩ | ⟨h, he⟩ | ⟨h, he⟩ | ⟨h, he⟩) <;>
        first
          | exact h
          | (exfalso; rw [Prod.mk.injEq] at he; omega)
    · intro h
      exact Or.inr (Or.inr (Or.inl ⟨h, rfl⟩))
  · rw [cellInDir_west, mem_nbrs, wallInDir_west]
    constructor
    · rintro (⟨h, he⟩ | ⟨h, he⟩ | ⟨h, he⟩ | ⟨h, he⟩) <;>
        first
          | exact h
          | (exfalso; rw [Prod.mk.injEq] at he; omega)
    · intro h
      exact Or.inr (Or.inr (Or.inr ⟨h, rfl⟩))

/-- Every neighbour is the cell in some open compass direction. -/
theorem mem_nbrs_elim {m : Maze} {c n : Cell} (h : n ∈ nbrs m c) :
    ∃ o, n = cellInDir c o ∧ wallInDir m c o = false := by
  rcases mem_nbrs.mp h with ⟨hw, rfl⟩ | ⟨hw, rfl⟩ | ⟨hw, rfl⟩ | ⟨hw, rfl⟩
  · exact ⟨.N, (cellInDir_north c).symm, (wallInDir_north m c).mpr hw⟩
  · exact ⟨.E, (cellInDir_east c).symm, (wallInDir_east m c).mpr hw⟩
  · exact ⟨.S, (cellInDir_south c).symm, (wallInDir_south m c).mpr hw⟩
  · exact ⟨.W, (cellInDir_west c).symm, (wallInDir_west m c).mpr hw⟩

/-! ## The move branches of the left-hand rule -/

theorem move_LF {m : Maze} {r : Runner} (h : (m.sense_walls r).1 = false) :
    m.move r = some ({ x := r.x + (deltas (leftOf r.orientation)).1,
                       y := r.y + (deltas (leftOf r.orientation)).2,
                       orientation := leftOf r.orientation }, "LF") := by
  have hw : wallInDir m (r.x, r.y) (leftOf r.orientation) = false := by
    have h2 := h
    rw [sense_walls_eq m r] at h2
    exact h2
  simp only [Maze.move, h, Bool.not_false, if_true, turnLR_left, go_straight_eq,
    hw, Bool.false_eq_true, if_false]

theorem move_F {m : Maze} {r : Runner} (hl : (m.sense_walls r).1 = true)
    (hf : (m.sense_walls r).2.1 = false) :
    m.move r = some ({ x := r.x + (deltas r.orientation).1,
                       y := r.y + (deltas r.orientation).2,
                       orientation := r.orientation }, "F") := by
  have hw : wallInDir m (r.x, r.y) r.orientation = false := by
    have h2 := hf
    rw [sense_walls_eq m r] at h2
    exact h2
  simp only [Maze.move, hl, hf, Bool.not_true, Bool.not_false, Bool.false_eq_true,
    if_false, if_true, go_straight_eq, hw]

theorem move_RF {m : Maze} {r : Runner} (hl : (m.sense_walls r).1 = true)
    (hf : (m.sense_walls r).2.1 = true) (hr : (m.sense_walls r).2.2 = false) :
    m.move r = some ({ x := r.x + (deltas (rightOf r.orientation)).1,
                       y := r.y + (deltas (rightOf r.orientation)).2,
                       orientation := rightOf r.orientation }, "RF") := by
  have hw : wallInDir m (r.x, r.y) (rightOf r.orientation) = false := by
    have h2 := hr
    rw [sense_walls_eq m r] at h2
    exact h2
  simp only [Maze.move, hl, hf, hr, Bool.not_true, Bool.not_false,
    Bool.false_eq_true, if_false, if_true, turnLR_right, go_straight_eq, hw]

theorem move_B {m : Maze} {r : Runner} (hl : (m.sense_walls r).1 = true)
    (hf : (m.sense_walls r).2.1 = true) (hr : (m.sense_walls r).2.2 = true) :
    m.move r = some ({ x := r.x - (deltas r.orientation).1,
                       y := r.y - (deltas r.orientation).2,
                       orientation := oppositeOf r.orientation }, "B") := by
  cases ho : r.orientation <;>
    simp only [Maze.move, hl, hf, hr, Bool.not_true, Bool.false_eq_true,
      if_false, ho, deltas, oppositeOf] <;>
    norm_num

/-- `move` always succeeds: the three forward branches only step through a
sensed-open wall, and the backward branch checks nothing (claim C10). -/
theorem move_total (m : Maze) (r : Runner) : ∃ p, m.move r = some p := by
  cases hl : (m.sense_walls r).1
  · exact ⟨_, move_LF hl⟩
  · cases hf : (m.sense_walls r).2.1
    · exact ⟨_, move_F hl hf⟩
    · cases hr : (m.sense_walls r).2.2
      · exact ⟨_, move_RF hl hf hr⟩
      · exact ⟨_, move_B hl hf hr⟩

/-- When the pre-move cell has exactly one open neighbour, the move target
is that neighbour (in particular the unchecked backward branch steps
through the single opening). -/
theorem move_target_mem {m : Maze} {r : Runner} {r2 : Runner} {a : String}
    (hone : (nbrs m (r.x, r.y)).length = 1)
    (hmv : m.move r = some (r2, a)) : (r2.x, r2.y) ∈ nbrs m (r.x, r.y) := by
  have hsw := sense_walls_eq m r
  cases hl : (m.sense_walls r).1
  · rw [move_LF hl] at hmv
    simp only [Option.some.injEq, Prod.mk.injEq] at hmv
    obtain ⟨h1, h2⟩ := hmv
    subst h1
    have hw : wallInDir m (r.x, r.y) (leftOf r.orientation) = false := by
      rw [hsw] at hl; exact hl
    simpa [cellInDir] using (mem_nbrs_dir (leftOf r.orientation)).mpr hw
  · cases hf : (m.sense_walls r).2.1
    · rw [move_F hl hf] at hmv
      simp only [Option.some.injEq, Prod.mk.injEq] at hmv
      obtain ⟨h1, h2⟩ := hmv
      subst h1
      have hw : wallInDir m (r.x, r.y) r.orientation = false := by
        rw [hsw] at hf; exact hf
      simpa [cellInDir] using (mem_nbrs_dir r.orientation).mpr hw
    · cases hr : (m.sense_walls r).2.2
      · rw [move_RF hl hf hr] at hmv
        simp only [Option.some.injEq, Prod.mk.injEq] at hmv
        obtain ⟨h1, h2⟩ := hmv
        subst h1
        have hw : wallInDir m (r.x, r.y) (rightOf r.orientation) = false := by
          rw [hsw] at hr; exact hr
        simpa [cellInDir] using (mem_nbrs_dir (rightOf r.orientation)).mpr hw
      · rw [move_B hl hf hr] at hmv
        simp only [Option.some.injEq, Prod.mk.injEq] at hmv
        obtain ⟨h1, h2⟩ := hmv
        subst h1
        -- three relative walls closed: the single opening is behind
        rw [hsw] at hl hf hr
        obtain ⟨n, hn⟩ := List.length_eq_one.mp hone
        have hmem : n ∈ nbrs m (r.x, r.y) := by
          rw [hn]; exact List.mem_singleton_self n
        obtain ⟨o, rfl, ho⟩ := mem_nbrs_elim hmem
        have hob : o = oppositeOf r.orientation := by
          cases ho2 : r.orientation <;> cases ho3 : o <;>
            simp_all [leftOf, rightOf, oppositeOf, cellInDir]
        subst hob
        have hpos : ((({ x := r.x - (deltas r.orientation).1,
                         y := r.y - (deltas r.orientation).2,
                         orientation := oppositeOf r.orientation } : Runner)).x,
                     (({ x := r.x - (deltas r.orientation).1,
                         y := r.y - (deltas r.orientation).2,
                         orientation := oppositeOf r.orientation } : Runner)).y) =
            cellInDir (r.x, r.y) (oppositeOf r.orientation) := by
          cases ho2 : r.orientation <;>
            simp [cellInDir, deltas, oppositeOf] <;> omega
        rw [hpos, hn]
        exact List.mem_singleton_self _

/-! ## Claims C5, C6, C10, C3, C7 -/

/-- C5: in a maze with no internal walls, `get_walls` is all-false at every
strictly interior cell, and on the boundary the outward-facing wall is true
(`y = height-1` ⇒ north, `y = 0` ⇒ south, `x = 0` ⇒ west,
`x = width-1` ⇒ east). -/
theorem claim_C5 (m : Maze) (x y : Int)
    (hH : m.horizontal_walls = []) (hV : m.vertical_walls = []) :
    (0 < x → x < m.width - 1 → 0 < y → y < m.height - 1 →
      m.get_walls x y = (false, false, false, false)) ∧
    (y = m.height - 1 → (m.get_walls x y).1 = true) ∧
    (y = 0 → (m.get_walls x y).2.2.1 = true) ∧
    (x = 0 → (m.get_walls x y).2.2.2 = true) ∧
    (x = m.width - 1 → (m.get_walls x y).2.1 = true) := by
  refine ⟨?_, ?_, ?_, ?_, ?_⟩ <;> intros <;>
    simp_all [Maze.get_walls, Prod.ext_iff] <;> omega

theorem claim_C5_witness :
    (Maze.horizontal_walls ⟨3, 3, [], []⟩ = [] ∧ (0:Int) < 1 ∧ (1:Int) < 3 - 1) ∧
    Maze.get_walls ⟨3, 3, [], []⟩ 1 1 = (false, false, false, false) :=
  ⟨⟨rfl, by norm_num, by norm_num⟩,
    (claim_C5 ⟨3, 3, [], []⟩ 1 1 rfl rfl).1 (by norm_num) (by norm_num)
      (by norm_num) (by norm_num)⟩

/-- At an in-range cell the basic module's bound checks never exclude an
open direction, so the two neighbour enumerations agree. -/
theorem get_neighbours_eq (m : Maze) (c : Cell) (hc : inRange m c) :
    m.get_neighbours_basic c.1 c.2 = m.get_neighbours_ext c.1 c.2 := by
  obtain ⟨hx0, hxw, hy0, hyh⟩ := hc
  have eN : (!(m.get_walls c.1 c.2).1 && decide (c.2 + 1 < m.height)) =
      !(m.get_walls c.1 c.2).1 := by
    cases hw : (m.get_walls c.1 c.2).1
    · have h1 : c.2 ≠ m.height - 1 :=
        fun he => ((wallInDir_north m c).mp hw) (Or.inl he)
      simp [show c.2 + 1 < m.height by omega]
    · simp
  have eE : (!(m.get_walls c.1 c.2).2.1 && decide (c.1 + 1 < m.width)) =
      !(m.get_walls c.1 c.2).2.1 := by
    cases hw : (m.get_walls c.1 c.2).2.1
    · have h1 : c.1 ≠ m.width - 1 :=
        fun he => ((wallInDir_east m c).mp hw) (Or.inl he)
      simp [show c.1 + 1 < m.width by omega]
    · simp
  have eS : (!(m.get_walls c.1 c.2).2.2.1 && decide (c.2 - 1 ≥ 0)) =
      !(m.get_walls c.1 c.2).2.2.1 := by
    cases hw : (m.get_walls c.1 c.2).2.2.1
    · have h1 : c.2 ≠ 0 :=
        fun he => ((wallInDir_south m c).mp hw) (Or.inl he)
      simp [show c.2 - 1 ≥ 0 by omega]
    · simp
  have eW : (!(m.get_walls c.1 c.2).2.2.2 && decide (c.1 - 1 ≥ 0)) =
      !(m.get_walls c.1 c.2).2.2.2 := by
    cases hw : (m.get_walls c.1 c.2).2.2.2
    · have h1 : c.1 ≠ 0 :=
        fun he => ((wallInDir_west m c).mp hw) (Or.inl he)
      simp [show c.1 - 1 ≥ 0 by omega]
    · simp
  simp only [Maze.get_neighbours_basic, Maze.get_neighbours_ext, eN, eE, eS, eW]

/-- C6: at every in-range cell the bound-checking neighbour enumeration of
the basic module and the unchecked enumeration of the extension module
return exactly the same neighbour list, and every returned neighbour is in
range (neither can fail: both are total functions). -/
theorem claim_C6 (m : Maze) (c : Cell) (hc : inRange m c) :
    m.get_neighbours_basic c.1 c.2 = m.get_neighbours_ext c.1 c.2 ∧
    ∀ n ∈ m.get_neighbours_ext c.1 c.2, inRange m n :=
  ⟨get_neighbours_eq m c hc, fun _ hn => nbrs_inRange hc hn⟩

theorem claim_C6_witness :
    inRange ⟨3, 3, [], []⟩ ((0:Int), (0:Int)) ∧
    Maze.get_neighbours_basic ⟨3, 3, [], []⟩ 0 0 =
      Maze.get_neighbours_ext ⟨3, 3, [], []⟩ 0 0 :=
  ⟨by decide, (claim_C6 ⟨3, 3, [], []⟩ (0, 0) (by decide)).1⟩

/-- C10 (implicit): the combined `move` operation never raises: each
forward branch only calls `go_straight` after sensing the corresponding
wall open (the turn makes that wall the front wall), `_turn` is only
invoked with `"Left"`/`"Right"`, and the backward branch checks nothing,
so `move` always returns a result. -/
theorem claim_C10 (m : Maze) (r : Runner) : ∃ p, m.move r = some p :=
  move_total m r

/-- C3 (amended): for a direction outside `{Left, Right}` the maze-module
`_turn` fails with `InvalidArgument` (`none`), but the runner-module `turn`
instead silently returns the runner unchanged; for `"Left"` both rotate the
orientation one step backward in the cycle N→E→S→W→N, for `"Right"` one
step forward, and the position is never changed. -/
theorem claim_C3 (m : Maze) (r : Runner) (d : String)
    (h1 : d ≠ "Left") (h2 : d ≠ "Right") :
    (m.turnLR r d = none ∧ r.turn d = r) ∧
    m.turnLR r "Left" = some { r with orientation := leftOf r.orientation } ∧
    m.turnLR r "Right" = some { r with orientation := rightOf r.orientation } ∧
    r.turn "Left" = { r with orientation := leftOf r.orientation } ∧
    r.turn "Right" = { r with orientation := rightOf r.orientation } :=
  ⟨⟨turnLR_other m r d h1 h2, runner_turn_other r d h1 h2⟩,
    turnLR_left m r, turnLR_right m r,
    runner_turn_left r, runner_turn_right r⟩

/-- C3 counterexample: `runner.turn` on the direction `"Up"` (outside
`{Left, Right}`) does not fail: it silently returns the runner unchanged,
contradicting the claim that every turn operation fails there. -/
theorem claim_C3_counterexample :
    Runner.turn ⟨0, 0, Orientation.N⟩ "Up" = ⟨0, 0, Orientation.N⟩ := by
  decide

theorem claim_C3_witness :
    ("Up" ≠ "Left" ∧ "Up" ≠ "Right") ∧
    (Maze.turnLR ⟨1, 1, [], []⟩ ⟨0, 0, Orientation.N⟩ "Up" = none ∧
      Runner.turn ⟨0, 0, Orientation.N⟩ "Up" = ⟨0, 0, Orientation.N⟩) :=
  ⟨⟨by decide, by decide⟩,
    (claim_C3 ⟨1, 1, [], []⟩ ⟨0, 0, Orientation.N⟩ "Up"
      (by decide) (by decide)).1⟩

/-- C7 (amended): the maze-module forward step `go_straight` fails with
`BlockedMove` exactly when the front wall is present, and otherwise
translates the position one cell in the facing direction (N: y+1, S: y-1,
E: x+1, W: x-1) with orientation unchanged; the runner-module `forward`
helper instead performs that translation unconditionally, consulting no
maze and never failing. -/
theorem claim_C7 (m : Maze) (r : Runner) :
    (m.go_straight r = none ↔ (m.sense_walls r).2.1 = true) ∧
    ((m.sense_walls r).2.1 = false →
      m.go_straight r = some { r with x := r.x + (deltas r.orientation).1,
                                      y := r.y + (deltas r.orientation).2 }) ∧
    r.forward = { r with x := r.x + (deltas r.orientation).1,
                         y := r.y + (deltas r.orientation).2 } := by
  have hfw : (m.sense_walls r).2.1 = wallInDir m (r.x, r.y) r.orientation := by
    rw [sense_walls_eq]
  refine ⟨?_, ?_, ?_⟩
  · rw [go_straight_eq, hfw]
    cases hw : wallInDir m (r.x, r.y) r.orientation <;> simp
  · intro h
    rw [go_straight_eq, hfw.symm.trans h]
    simp
  · rfl

/-- C7 counterexample: in the 1×1 maze the front wall at `(0, 0)` facing
north is present, yet the runner-module forward step does not fail with a
`BlockedMove` condition: it returns the translated runner `(0, 1)`. -/
theorem claim_C7_counterexample :
    (Maze.sense_walls ⟨1, 1, [], []⟩ ⟨0, 0, Orientation.N⟩).2.1 = true ∧
    Runner.forward ⟨0, 0, Orientation.N⟩ = ⟨0, 1, Orientation.N⟩ := by
  constructor <;> decide

theorem claim_C7_witness :
    (Maze.sense_walls ⟨2, 2, [], []⟩ ⟨0, 0, Orientation.N⟩).2.1 = false ∧
    Maze.go_straight ⟨2, 2, [], []⟩ ⟨0, 0, Orientation.N⟩ =
      some ⟨0, 1, Orientation.N⟩ :=
  ⟨by decide,
    by
      have h := (claim_C7 ⟨2, 2, [], []⟩ ⟨0, 0, Orientation.N⟩).2.1 (by decide)
      simpa [deltas] using h⟩

/-! ## Claim C4: the explorer's priority rule and the log entry -/

/-- C4: at every exploration step away from the goal, `move` follows
exactly the priority left (`"LF"`), front (`"F"`), right (`"RF"`),
backward (`"B"`, position moved opposite to the facing, orientation
flipped), and the log records `(pre-move x, pre-move y, action)` using the
position before the move. -/
theorem claim_C4 (m : Maze) (r : Runner) (goal : Cell) (fuel : Nat)
    (log : List (Int × Int × String))
    (hne : (r.x, r.y) ≠ goal)
    (hrun : m.exploreFuel fuel r goal = some log) :
    ∃ r2 rest,
      m.move r = some (r2,
        if (m.sense_walls r).1 = false then "LF"
        else if (m.sense_walls r).2.1 = false then "F"
        else if (m.sense_walls r).2.2 = false then "RF"
        else "B") ∧
      r2 = (if (m.sense_walls r).1 = false then
              { x := r.x + (deltas (leftOf r.orientation)).1,
                y := r.y + (deltas (leftOf r.orientation)).2,
                orientation := leftOf r.orientation }
            else if (m.sense_walls r).2.1 = false then
              { x := r.x + (deltas r.orientation).1,
                y := r.y + (deltas r.orientation).2,
                orientation := r.orientation }
            else if (m.sense_walls r).2.2 = false then
              { x := r.x + (deltas (rightOf r.orientation)).1,
                y := r.y + (deltas (rightOf r.orientation)).2,
                orientation := rightOf r.orientation }
            else
              { x := r.x - (deltas r.orientation).1,
                y := r.y - (deltas r.orientation).2,
                orientation := oppositeOf r.orientation }) ∧
      log = (r.x, r.y,
        if (m.sense_walls r).1 = false then "LF"
        else if (m.sense_walls r).2.1 = false then "F"
        else if (m.sense_walls r).2.2 = false then "RF"
        else "B") :: rest ∧
      m.exploreFuel (fuel - 1) r2 goal = some rest := by
  match fuel with
  | 0 =>
    exfalso
    simp only [Maze.exploreFuel, if_neg hne] at hrun
    exact Option.noConfusion hrun
  | fuel + 1 =>
    simp only [Maze.exploreFuel, if_neg hne] at hrun
    have hmove : ∃ r2,
        m.move r = some (r2,
          if (m.sense_walls r).1 = false then "LF"
          else if (m.sense_walls r).2.1 = false then "F"
          else if (m.sense_walls r).2.2 = false then "RF"
          else "B") ∧
        r2 = (if (m.sense_walls r).1 = false then
                { x := r.x + (deltas (leftOf r.orientation)).1,
                  y := r.y + (deltas (leftOf r.orientation)).2,
                  orientation := leftOf r.orientation }
              else if (m.sense_walls r).2.1 = false then
                { x := r.x + (deltas r.orientation).1,
                  y := r.y + (deltas r.orientation).2,
                  orientation := r.orientation }
              else if (m.sense_walls r).2.2 = false then
                { x := r.x + (deltas (rightOf r.orientation)).1,
                  y := r.y + (deltas (rightOf r.orientation)).2,
                  orientation := rightOf r.orientation }
              else
                { x := r.x - (deltas r.orientation).1,
                  y := r.y - (deltas r.orientation).2,
                  orientation := oppositeOf r.orientation }) := by
      cases hl : (m.sense_walls r).1
      · refine ⟨{ x := r.x + (deltas (leftOf r.orientation)).1,
                  y := r.y + (deltas (leftOf r.orientation)).2,
                  orientation := leftOf r.orientation }, ?_, ?_⟩
        · simp [move_LF hl, hl]
        · simp [hl]
      · cases hf : (m.sense_walls r).2.1
        · refine ⟨{ x := r.x + (deltas r.orientation).1,
                    y := r.y + (deltas r.orientation).2,
                    orientation := r.orientation }, ?_, ?_⟩
          · simp [move_F hl hf, hl, hf]
          · simp [hl, hf]
        · cases hr : (m.sense_walls r).2.2
          · refine ⟨{ x := r.x + (deltas (rightOf r.orientation)).1,
                      y := r.y + (deltas (rightOf r.orientation)).2,
                      orientation := rightOf r.orientation }, ?_, ?_⟩
            · simp [move_RF hl hf hr, hl, hf, hr]
            · simp [hl, hf, hr]
          · refine ⟨{ x := r.x - (deltas r.orientation).1,
                      y := r.y - (deltas r.orientation).2,
                      orientation := oppositeOf r.orientation }, ?_, ?_⟩
            · simp [move_B hl hf hr, hl, hf, hr]
            · simp [hl, hf, hr]
    obtain ⟨r2, hmv, hr2⟩ := hmove
    simp only [hmv] at hrun
    cases hrest : m.exploreFuel fuel r2 goal with
    | none =>
      simp only [hrest] at hrun
      exact Option.noConfusion hrun
    | some rest =>
      simp only [hrest, Option.some.injEq] at hrun
      refine ⟨r2, rest, hmv, hr2, ?_, by simpa using hrest⟩
      exact hrun.symm

theorem claim_C4_witness :
    (((0:Int), (0:Int)) ≠ ((2:Int), (2:Int)) ∧
      Maze.exploreFuel ⟨3, 3, [], []⟩ 6 ⟨0, 0, Orientation.N⟩ (2, 2) =
        some [(0, 0, "F"), (0, 1, "F"), (0, 2, "RF"), (1, 2, "F")]) ∧
    (∃ r2 rest,
      Maze.move ⟨3, 3, [], []⟩ ⟨0, 0, Orientation.N⟩ = some (r2, "F") ∧
      r2 = ⟨0 + 0, 0 + 1, Orientation.N⟩ ∧
      ([((0:Int), (0:Int), "F"), (0, 1, "F"), (0, 2, "RF"), (1, 2, "F")] :
          List (Int × Int × String)) = (0, 0, "F") :: rest ∧
      Maze.exploreFuel ⟨3, 3, [], []⟩ (6 - 1) r2 (2, 2) = some rest) :=
  ⟨⟨by decide, by rfl⟩,
    claim_C4 ⟨3, 3, [], []⟩ ⟨0, 0, Orientation.N⟩ (2, 2) 6
      [(0, 0, "F"), (0, 1, "F"), (0, 2, "RF"), (1, 2, "F")]
      (by decide) (by rfl)⟩

/-! ## Claim C9: single-corridor exploration -/

theorem explore_nil {m : Maze} {fuel : Nat} {r : Runner} {goal : Cell}
    (h : m.exploreFuel fuel r goal = some []) : (r.x, r.y) = goal := by
  by_contra hne
  match fuel with
  | 0 =>
    simp only [Maze.exploreFuel, if_neg hne] at h
    exact Option.noConfusion h
  | fuel + 1 =>
    simp only [Maze.exploreFuel, if_neg hne] at h
    cases hmv : m.move r with
    | none =>
      simp only [hmv] at h
      exact Option.noConfusion h
    | some p =>
      obtain ⟨r2, a⟩ := p
      simp only [hmv] at h
      cases hrest : m.exploreFuel fuel r2 goal with
      | none =>
        simp only [hrest] at h
        exact Option.noConfusion h
      | some rest =>
        simp only [hrest, Option.some.injEq] at h
        exact List.noConfusion h

theorem explore_goal {m : Maze} (fuel : Nat) (r : Runner) {goal : Cell}
    (h : (r.x, r.y) = goal) : m.exploreFuel fuel r goal = some [] := by
  match fuel with
  | 0 => simp only [Maze.exploreFuel, if_pos h]
  | fuel + 1 => simp only [Maze.exploreFuel, if_pos h]

/-- One unfolding of a non-final exploration step: the log records the
pre-move position together with the move's action. -/
theorem explore_step {m : Maze} {fuel : Nat} {r : Runner} {goal : Cell}
    {log : List (Int × Int × String)} (hne : (r.x, r.y) ≠ goal)
    (h : m.exploreFuel fuel r goal = some log) :
    ∃ r2 a rest, m.move r = some (r2, a) ∧ log = (r.x, r.y, a) :: rest ∧
      m.exploreFuel (fuel - 1) r2 goal = some rest := by
  match fuel with
  | 0 =>
    simp only [Maze.exploreFuel, if_neg hne] at h
    exact Option.noConfusion h
  | fuel + 1 =>
    simp only [Maze.exploreFuel, if_neg hne] at h
    cases hmv : m.move r with
    | none =>
      simp only [hmv] at h
      exact Option.noConfusion h
    | some p =>
      obtain ⟨r2, a⟩ := p
      simp only [hmv] at h
      cases hrest : m.exploreFuel fuel r2 goal with
      | none =>
        simp only [hrest] at h
        exact Option.noConfusion h
      | some rest =>
        simp only [hrest, Option.some.injEq] at h
        exact ⟨r2, a, rest, rfl, h.symm, by simpa using hrest⟩

theorem length_one_mem {α : Type} {l : List α} {x : α}
    (h1 : l.length = 1) (h2 : x ∈ l) : l = [x] := by
  obtain ⟨a, rfl⟩ := List.length_eq_one.mp h1
  simp only [List.mem_singleton] at h2
  subst h2
  rfl

/-- Between two mutually-single-neighbour cells away from the goal, the
explorer shuttles forever: no log is ever produced. -/
theorem explore_bounce {m : Maze} {s u goal : Cell}
    (hs : s ≠ goal) (hu : u ≠ goal)
    (hns : nbrs m s = [u]) (hnu : nbrs m u = [s]) :
    ∀ (fuel : Nat) (r : Runner), ((r.x, r.y) = s ∨ (r.x, r.y) = u) →
      m.exploreFuel fuel r goal = none := by
  intro fuel
  induction fuel with
  | zero =>
    intro r hr
    have hne : (r.x, r.y) ≠ goal := by
      rcases hr with h | h <;> rw [h] <;> assumption
    simp only [Maze.exploreFuel, if_neg hne]
  | succ k ih =>
    intro r hr
    have hne : (r.x, r.y) ≠ goal := by
      rcases hr with h | h <;> rw [h] <;> assumption
    simp only [Maze.exploreFuel, if_neg hne]
    obtain ⟨⟨r2, a⟩, hmv⟩ := move_total m r
    have hone : (nbrs m (r.x, r.y)).length = 1 := by
      rcases hr with h | h <;> rw [h] <;> simp [hns, hnu]
    have hmem := move_target_mem hone hmv
    have hr2 : (r2.x, r2.y) = u ∨ (r2.x, r2.y) = s := by
      rcases hr with h | h
      · rw [h, hns] at hmem
        exact Or.inl (List.mem_singleton.mp hmem)
      · rw [h, hnu] at hmem
        exact Or.inr (List.mem_singleton.mp hmem)
    rw [hmv]
    have h2 := ih r2 hr2.symm
    show (match m.exploreFuel k r2 goal with
      | none => none
      | some log => some ((r.x, r.y, a) :: log)) = none
    rw [h2]

/-- C9 (amended): on a maze where every cell the explorer stands on has
exactly one open neighbour, a completed exploration log from an in-grid
start has length exactly the Manhattan distance from start to goal (the
actions, however, need not all be `"F"`). -/
theorem claim_C9 (m : Maze) (r : Runner) (goal : Cell) (fuel : Nat)
    (log : List (Int × Int × String))
    (hin : inRange m (r.x, r.y))
    (hone : ∀ e ∈ log, (nbrs m (e.1, e.2.1)).length = 1)
    (hrun : m.exploreFuel fuel r goal = some log) :
    log.length = manhattan (r.x, r.y) goal := by
  match log with
  | [] =>
    rw [explore_nil hrun, manhattan_self]
    rfl
  | e :: rest =>
    have hne : (r.x, r.y) ≠ goal := by
      intro h
      rw [explore_goal fuel r h] at hrun
      simp only [Option.some.injEq] at hrun
      exact List.noConfusion hrun
    obtain ⟨r2, a, rest', hmv, hlog, hrest⟩ := explore_step hne hrun
    injection hlog with he hr'
    subst he
    subst hr'
    have hcount : (nbrs m (r.x, r.y)).length = 1 := by
      have := hone (r.x, r.y, a) (by simp)
      simpa using this
    have hmem := move_target_mem hcount hmv
    have hns : nbrs m (r.x, r.y) = [(r2.x, r2.y)] := length_one_mem hcount hmem
    have hman : manhattan (r.x, r.y) (r2.x, r2.y) = 1 := manhattan_nbrs hmem
    match rest, hrest with
    | [], hrest =>
      have hg := explore_nil hrest
      simp only [List.length_cons, List.length_nil]
      rw [← hg, hman]
    | e2 :: rest2, hrest =>
      exfalso
      have hne2 : (r2.x, r2.y) ≠ goal := by
        intro hg
        rw [explore_goal (fuel - 1) r2 hg] at hrest
        simp only [Option.some.injEq] at hrest
        exact List.noConfusion hrest
      obtain ⟨r3, a2, rest3, hmv2, hlog2, _⟩ := explore_step hne2 hrest
      injection hlog2 with he2 hr2'
      subst he2
      have hcount2 : (nbrs m (r2.x, r2.y)).length = 1 := by
        have := hone (r2.x, r2.y, a2) (by simp)
        simpa using this
      have hsym : (r.x, r.y) ∈ nbrs m (r2.x, r2.y) := nbrs_symm hin hmem
      have hnu : nbrs m (r2.x, r2.y) = [(r.x, r.y)] :=
        length_one_mem hcount2 hsym
      have hb := explore_bounce hne hne2 hns hnu (fuel - 1) r2 (Or.inr rfl)
      exact Option.noConfusion (hb.symm.trans hrest)

/-- C9 counterexample: the 1×2 maze is a single-cell-wide corridor (both
cells have exactly one open neighbour), the start is in range, the log
length equals the Manhattan distance 1, yet the single action is `"LF"`,
not `"F"`: the runner faces east and the opening is on its left.  This
falsifies the claim's "every action in that log is F". -/
theorem claim_C9_counterexample :
    Maze.exploreFuel ⟨1, 2, [], []⟩ 2 ⟨0, 0, Orientation.E⟩ (0, 1) =
      some [(0, 0, "LF")] ∧
    (nbrs ⟨1, 2, [], []⟩ (0, 0)).length = 1 ∧
    (nbrs ⟨1, 2, [], []⟩ (0, 1)).length = 1 ∧
    inRange ⟨1, 2, [], []⟩ (0, 0) ∧
    manhattan (0, 0) (0, 1) = 1 ∧
    "LF" ≠ "F" := by
  exact ⟨by rfl, by rfl, by rfl, by decide, by rfl, by decide⟩

theorem claim_C9_witness :
    (inRange ⟨1, 2, [], []⟩ ((0:Int), (0:Int)) ∧
      Maze.exploreFuel ⟨1, 2, [], []⟩ 2 ⟨0, 0, Orientation.E⟩ (0, 1) =
        some [(0, 0, "LF")]) ∧
    ([((0:Int), (0:Int), "LF")].length = manhattan (0, 0) (0, 1)) :=
  ⟨⟨by decide, by rfl⟩,
    claim_C9 ⟨1, 2, [], []⟩ ⟨0, 0, Orientation.E⟩ (0, 1) 2 [(0, 0, "LF")]
      (by decide) (by decide) (by rfl)⟩

/-! ## BFS correctness: groundwork -/

/-- Number of grid cells. -/
def cellCount (m : Maze) : Nat := m.width.toNat * m.height.toNat

/-- A duplicate-free list of in-range cells has at most `width * height`
elements. -/
theorem nodup_inRange_length {m : Maze} {l : List Cell}
    (h1 : l.Nodup) (h2 : ∀ c ∈ l, inRange m c) : l.length ≤ cellCount m := by
  classical
  have hsub : l.toFinset ⊆ Finset.Ico 0 m.width ×ˢ Finset.Ico 0 m.height := by
    intro c hcmem
    rw [List.mem_toFinset] at hcmem
    obtain ⟨hx0, hxw, hy0, hyh⟩ := h2 c hcmem
    rw [Finset.mem_product, Finset.mem_Ico, Finset.mem_Ico]
    exact ⟨⟨hx0, hxw⟩, ⟨hy0, hyh⟩⟩
  have hcard := Finset.card_le_card hsub
  rw [List.toFinset_card_of_nodup h1, Finset.card_product] at hcard
  simpa [cellCount, Int.card_Ico] using hcard

/-- The termination measure of the BFS loop. -/
def bfsMeasure (m : Maze) (queue visited : List Cell) : Nat :=
  queue.length + 2 * (cellCount m - visited.length)

/-- Characterisation of one BFS expansion fold: the queue gains exactly the
previously unvisited neighbours (`new`), which become visited with parent
`current`; all other map entries are untouched. -/
theorem bfs_fold (current : Cell) (L : List Cell) :
    ∀ (q v : List Cell) (p : List (Cell × Cell)),
    ∃ new : List Cell,
      (L.foldl (bfsStep current) (q, v, p)).1 = q ++ new ∧
      (L.foldl (bfsStep current) (q, v, p)).2.1.length = v.length + new.length ∧
      (∀ x, x ∈ (L.foldl (bfsStep current) (q, v, p)).2.1 ↔ x ∈ v ∨ x ∈ L) ∧
      new.Nodup ∧
      (∀ x ∈ new, x ∈ L ∧ x ∉ v) ∧
      (∀ x, x ∈ L → x ∉ v → x ∈ new) ∧
      (∀ x, x ∈ v → alook (L.foldl (bfsStep current) (q, v, p)).2.2 x = alook p x) ∧
      (∀ x, x ∉ v → x ∈ L →
        alook (L.foldl (bfsStep current) (q, v, p)).2.2 x = some current) ∧
      (∀ x, x ∉ v → x ∉ L →
        alook (L.foldl (bfsStep current) (q, v, p)).2.2 x = alook p x) ∧
      (v.Nodup → (L.foldl (bfsStep current) (q, v, p)).2.1.Nodup) := by
  induction L with
  | nil =>
    intro q v p
    exact ⟨[], by simp, by simp, by simp, List.nodup_nil, by simp, by simp,
      fun x _ => rfl, by simp, fun x _ _ => rfl, id⟩
  | cons x0 L ih =>
    intro q v p
    by_cases hx0 : x0 ∈ v
    · -- skip branch: state unchanged
      have hstep : bfsStep current (q, v, p) x0 = (q, v, p) := by
        simp [bfsStep, hx0]
      obtain ⟨new, h1, h2, h3, h4, h5, h6, h7, h8, h9, h10⟩ := ih q v p
      rw [List.foldl_cons, hstep]
      refine ⟨new, h1, h2, ?_, h4, ?_, ?_, h7, ?_, ?_, h10⟩
      · intro x
        rw [h3]
        constructor
        · rintro (h | h)
          · exact Or.inl h
          · exact Or.inr (List.mem_cons_of_mem _ h)
        · rintro (h | h)
          · exact Or.inl h
          · rcases List.mem_cons.mp h with rfl | h
            · exact Or.inl hx0
            · exact Or.inr h
      · intro x hx
        obtain ⟨ha, hb⟩ := h5 x hx
        exact ⟨List.mem_cons_of_mem _ ha, hb⟩
      · intro x hxL hxv
        rcases List.mem_cons.mp hxL with rfl | hxL
        · exact absurd hx0 hxv
        · exact h6 x hxL hxv
      · intro x hxv hxL
        rcases List.mem_cons.mp hxL with rfl | hxL
        · exact absurd hx0 hxv
        · exact h8 x hxv hxL
      · intro x hxv hxL
        exact h9 x hxv (fun h => hxL (List.mem_cons_of_mem _ h))
    · -- fresh branch: append to queue, mark visited, record parent
      have hstep : bfsStep current (q, v, p) x0 =
          (q ++ [x0], x0 :: v, (x0, current) :: p) := by
        simp [bfsStep, hx0]
      obtain ⟨new, h1, h2, h3, h4, h5, h6, h7, h8, h9, h10⟩ :=
        ih (q ++ [x0]) (x0 :: v) ((x0, current) :: p)
      rw [List.foldl_cons, hstep]
      refine ⟨x0 :: new, ?_, ?_, ?_, ?_, ?_, ?_, ?_, ?_, ?_, ?_⟩
      · rw [h1, List.append_assoc]
        rfl
      · rw [h2]
        simp only [List.length_cons]
        omega
      · intro x
        rw [h3]
        constructor
        · rintro (h | h)
          · rcases List.mem_cons.mp h with rfl | h
            · exact Or.inr (List.mem_cons_self _ _)
            · exact Or.inl h
          · exact Or.inr (List.mem_cons_of_mem _ h)
        · rintro (h | h)
          · exact Or.inl (List.mem_cons_of_mem _ h)
          · rcases List.mem_cons.mp h with rfl | h
            · exact Or.inl (List.mem_cons_self _ _)
            · exact Or.inr h
      · rw [List.nodup_cons]
        refine ⟨fun hmem => ?_, h4⟩
        exact (h5 x0 hmem).2 (List.mem_cons_self _ _)
      · intro x hx
        rcases List.mem_cons.mp hx with rfl | hx
        · exact ⟨List.mem_cons_self _ _, hx0⟩
        · obtain ⟨ha, hb⟩ := h5 x hx
          exact ⟨List.mem_cons_of_mem _ ha,
            fun hv => hb (List.mem_cons_of_mem _ hv)⟩
      · intro x hxL hxv
        rcases List.mem_cons.mp hxL with rfl | hxL
        · exact List.mem_cons_self _ _
        · by_cases hxx : x = x0
          · subst hxx
            exact List.mem_cons_self _ _
          · exact List.mem_cons_of_mem _
              (h6 x hxL (fun h => by
                rcases List.mem_cons.mp h with h | h
                · exact hxx h
                · exact hxv h))
      · intro x hxv
        by_cases hxx : x = x0
        · subst hxx
          exact absurd hxv hx0
        · have := h7 x (List.mem_cons_of_mem _ hxv)
          rw [this]
          have hxx2 : x0 ≠ x := fun h => hxx h.symm
          simp [alook, hxx2]
      · intro x hxv hxL
        rcases List.mem_cons.mp hxL with rfl | hxL
        · have := h7 x (List.mem_cons_self _ _)
          rw [this]
          simp [alook]
        · by_cases hxx : x = x0
          · subst hxx
            have := h7 x (List.mem_cons_self _ _)
            rw [this]
            simp [alook]
          · have := h8 x (fun h => by
              rcases List.mem_cons.mp h with h | h
              · exact hxx h
              · exact hxv h) hxL
            rw [this]
      · intro x hxv hxL
        have hxx : x ≠ x0 := fun h => hxL (h ▸ List.mem_cons_self _ _)
        have := h9 x (fun h => by
            rcases List.mem_cons.mp h with h | h
            · exact hxx h
            · exact hxv h)
          (fun h => hxL (List.mem_cons_of_mem _ h))
        rw [this]
        have hxx2 : x0 ≠ x := fun h => hxx h.symm
        simp [alook, hxx2]
      · intro hv
        exact h10 (List.nodup_cons.mpr ⟨hx0, hv⟩)

/-- The BFS loop invariant, tying the queue, visited set and parent map to
graph distances from `start`. -/
structure BfsInv (m : Maze) (start target : Cell)
    (queue visited : List Cell) (parent : List (Cell × Cell)) : Prop where
  vis_nodup : visited.Nodup
  vis_inRange : ∀ c ∈ visited, inRange m c
  vis_reach : ∀ c ∈ visited, ∃ d, minReach m start c d
  vis_bound : ∀ c ∈ visited, ∀ dc, minReach m start c dc → dc + 1 ≤ visited.length
  queue_sub : ∀ c ∈ queue, c ∈ visited
  start_vis : start ∈ visited
  start_par : alook parent start = none
  par_iff : ∀ c ∈ visited, c ≠ start → ∃ p, alook parent c = some p
  par_dist : ∀ c p, alook parent c = some p →
      c ∈ nbrs m p ∧ p ∈ visited ∧
        ∃ dp, minReach m start p dp ∧ minReach m start c (dp + 1)
  levels : ∃ ds : List Nat,
      List.Forall₂ (fun c d => minReach m start c d) queue ds ∧
      ds.Sorted (· ≤ ·) ∧ ∀ d1 ∈ ds, ∀ d2 ∈ ds, d1 ≤ d2 + 1
  expanded : ∀ c ∈ visited, c ∈ queue ∨ ∀ nb ∈ nbrs m c, nb ∈ visited
  frontier : ∀ z n, minReach m start z n → z ∉ visited →
      ∃ y ∈ queue, ∃ a b, minReach m start y a ∧ reachN m b y z ∧ a + b = n
  target_q : target ∈ visited → target ∈ queue

/-- The invariant holds for the initial BFS state. -/
theorem bfsInv_init (m : Maze) (start target : Cell) (hs : inRange m start) :
    BfsInv m start target [start] [start] [] := by
  refine ⟨List.nodup_singleton _, ?_, ?_, ?_, ?_, List.mem_singleton_self _,
    rfl, ?_, ?_, ?_, ?_, ?_, ?_⟩
  · intro c hc
    rw [List.mem_singleton] at hc
    subst hc
    exact hs
  · intro c hc
    rw [List.mem_singleton] at hc
    subst hc
    exact ⟨0, minReach_self m c⟩
  · intro c hc dc hdc
    rw [List.mem_singleton] at hc
    subst hc
    have := minReach_unique hdc (minReach_self m c)
    simp [this]
  · intro c hc
    exact hc
  · intro c hc hne
    rw [List.mem_singleton] at hc
    exact absurd hc hne
  · intro c p hcp
    exact absurd hcp (by simp [alook])
  · exact ⟨[0], by
      refine List.forall₂_cons.mpr ⟨minReach_self m start, List.Forall₂.nil⟩,
      List.sorted_singleton _, by simp⟩
  · intro c hc
    exact Or.inl hc
  · intro z n hz hnz
    refine ⟨start, List.mem_singleton_self _, 0, n, minReach_self m start,
      hz.1, by omega⟩
  · intro h
    exact h

theorem forall₂_mem_left {α β : Type} {P : α → β → Prop} :
    ∀ {l1 : List α} {l2 : List β}, List.Forall₂ P l1 l2 →
      ∀ x ∈ l1, ∃ y ∈ l2, P x y := by
  intro l1 l2 h
  induction h with
  | nil => intro x hx; exact absurd hx (by simp)
  | cons hab _ ih =>
    intro x hx
    rcases List.mem_cons.mp hx with rfl | hx
    · exact ⟨_, List.mem_cons_self _ _, hab⟩
    · obtain ⟨y, hy, hP⟩ := ih x hx
      exact ⟨y, List.mem_cons_of_mem _ hy, hP⟩

theorem pairwise_const_le {α : Type} (k : Nat) (l : List α) :
    (l.map (fun _ => k)).Pairwise (· ≤ ·) := by
  induction l with
  | nil => simp
  | cons a l ih =>
    rw [List.map_cons, List.pairwise_cons]
    exact ⟨fun b hb => by
      rw [List.mem_map] at hb
      obtain ⟨c, _, rfl⟩ := hb
      exact Nat.le_refl k, ih⟩

/-- One full BFS iteration (pop `current ≠ target`, expand its neighbours)
preserves the invariant and strictly decreases the measure. -/
theorem bfs_iterate {m : Maze} {start target current : Cell}
    {rest visited : List Cell} {parent : List (Cell × Cell)}
    (inv : BfsInv m start target (current :: rest) visited parent)
    (hct : current ≠ target) :
    ∃ q' v' p',
      (m.get_neighbours_basic current.1 current.2).foldl
        (bfsStep current) (rest, visited, parent) = (q', v', p') ∧
      BfsInv m start target q' v' p' ∧
      bfsMeasure m q' v' < bfsMeasure m (current :: rest) visited := by
  have hcur_vis : current ∈ visited :=
    inv.queue_sub current (List.mem_cons_self _ _)
  have hcur_rng : inRange m current := inv.vis_inRange current hcur_vis
  have hL : m.get_neighbours_basic current.1 current.2 = nbrs m current :=
    get_neighbours_eq m current hcur_rng
  rw [hL]
  obtain ⟨new, h1, h2, h3, h4, h5, h6, h7, h8, h9, h10⟩ :=
    bfs_fold current (nbrs m current) rest visited parent
  set R := (nbrs m current).foldl (bfsStep current) (rest, visited, parent)
    with hR
  obtain ⟨ds, hds, hsort, hspan⟩ := inv.levels
  cases hds with
  | cons hcd hdsr =>
  rename_i dcur dsr
  -- distances of the freshly discovered cells
  have hnew_dist : ∀ x ∈ new, minReach m start x (dcur + 1) := by
    intro x hx
    obtain ⟨hxL, hxv⟩ := h5 x hx
    have hreach : reachN m (dcur + 1) start x := by
      have hstep : reachN m 1 current x := ⟨x, hxL, rfl⟩
      simpa using hcd.1.trans hstep
    obtain ⟨d, hd, hdle⟩ := exists_minReach hreach
    have hdeq : d = dcur + 1 := by
      by_contra hne
      have hdlt : d ≤ dcur := by omega
      obtain ⟨y, hyq, a, b, hya, hyb, hab⟩ := inv.frontier x d hd hxv
      obtain ⟨dy, hdym, hdyP⟩ :=
        forall₂_mem_left (List.Forall₂.cons hcd hdsr) y hyq
      have haeq : a = dy := minReach_unique hya hdyP
      have hdy_lb : dcur ≤ dy := by
        rcases List.mem_cons.mp hdym with rfl | hdym
        · exact Nat.le_refl _
        · exact (List.pairwise_cons.mp hsort).1 dy hdym
      have hb0 : b = 0 := by omega
      subst hb0
      have hyx : y = x := hyb
      subst hyx
      exact hxv (inv.queue_sub y hyq)
    rw [← hdeq]
    exact hd
  have hvold : ∀ x ∈ visited, x ∈ R.2.1 :=
    fun x hx => (h3 x).mpr (Or.inl hx)
  have hvnbr : ∀ x ∈ nbrs m current, x ∈ R.2.1 :=
    fun x hx => (h3 x).mpr (Or.inr hx)
  have hrng' : ∀ c ∈ R.2.1, inRange m c := by
    intro c hc
    rcases (h3 c).mp hc with hc | hc
    · exact inv.vis_inRange c hc
    · exact nbrs_inRange hcur_rng hc
  have hexp' : ∀ c ∈ R.2.1, c ∈ R.1 ∨ ∀ nb ∈ nbrs m c, nb ∈ R.2.1 := by
    intro c hc
    by_cases hcv : c ∈ visited
    · rcases inv.expanded c hcv with hq | hexp
      · rcases List.mem_cons.mp hq with rfl | hq
        · exact Or.inr hvnbr
        · left
          rw [h1]
          exact List.mem_append_left _ hq
      · exact Or.inr fun nb hnb => hvold nb (hexp nb hnb)
    · left
      rw [h1]
      rcases (h3 c).mp hc with hc2 | hc2
      · exact absurd hc2 hcv
      · exact List.mem_append_right _ (h6 c hc2 hcv)
  -- walking a shortest continuation out of the enlarged visited set
  have hwalk : ∀ (z : Cell) (n : Nat), minReach m start z n → z ∉ R.2.1 →
      ∀ b y a, y ∈ R.2.1 → minReach m start y a → reachN m b y z →
        a + b = n →
      ∃ w ∈ R.1, ∃ aw bw, minReach m start w aw ∧ reachN m bw w z ∧
        aw + bw = n := by
    intro z n hz hnz b
    induction b with
    | zero =>
      intro y a hyv hya hyb hsum
      exact absurd (hyb ▸ hyv) hnz
    | succ b ih =>
      intro y a hyv hya hyb hsum
      rcases hexp' y hyv with hyq | hnbv
      · exact ⟨y, hyq, a, b + 1, hya, hyb, hsum⟩
      · obtain ⟨u, hu, hru⟩ := hyb
        have hmu : minReach m start u (a + 1) :=
          minReach_step hya hu hru hz (by omega)
        exact ih u (a + 1) (hnbv u hu) hmu hru (by omega)
  refine ⟨R.1, R.2.1, R.2.2, rfl, ?_, ?_⟩
  · refine ⟨h10 inv.vis_nodup, hrng', ?_, ?_, ?_, hvold start inv.start_vis,
      ?_, ?_, ?_, ?_, ?_, ?_, ?_⟩
    · -- vis_reach
      intro c hc
      rcases (h3 c).mp hc with hc | hc
      · exact inv.vis_reach c hc
      · by_cases hcv : c ∈ visited
        · exact inv.vis_reach c hcv
        · exact ⟨dcur + 1, hnew_dist c (h6 c hc hcv)⟩
    · -- vis_bound
      intro c hc dc hdc
      rw [h2]
      rcases (h3 c).mp hc with hc | hc
      · have := inv.vis_bound c hc dc hdc
        omega
      · by_cases hcv : c ∈ visited
        · have := inv.vis_bound c hcv dc hdc
          omega
        · have hcnew : c ∈ new := h6 c hc hcv
          have hdeq : dc = dcur + 1 :=
            minReach_unique hdc (hnew_dist c hcnew)
          have hc1 : dcur + 1 ≤ visited.length :=
            inv.vis_bound current hcur_vis dcur hcd
          have hn1 : 1 ≤ new.length := by
            cases new with
            | nil => exact absurd hcnew (by simp)
            | cons a l => simp
          omega
    · -- queue_sub
      intro c hc
      rw [h1] at hc
      rcases List.mem_append.mp hc with hc | hc
      · exact hvold c (inv.queue_sub c (List.mem_cons_of_mem _ hc))
      · exact hvnbr c (h5 c hc).1
    · -- start_par
      rw [h7 start inv.start_vis]
      exact inv.start_par
    · -- par_iff
      intro c hc hcs
      by_cases hcv : c ∈ visited
      · rw [h7 c hcv]
        exact inv.par_iff c hcv hcs
      · rcases (h3 c).mp hc with hc2 | hc2
        · exact absurd hc2 hcv
        · exact ⟨current, h8 c hcv hc2⟩
    · -- par_dist
      intro c p hcp
      by_cases hcv : c ∈ visited
      · rw [h7 c hcv] at hcp
        obtain ⟨hnb, hpv, dp, hdp, hdc⟩ := inv.par_dist c p hcp
        exact ⟨hnb, hvold p hpv, dp, hdp, hdc⟩
      · by_cases hcL : c ∈ nbrs m current
        · rw [h8 c hcv hcL] at hcp
          have hpc : p = current := (Option.some_inj.mp hcp).symm
          subst hpc
          exact ⟨hcL, hvold p hcur_vis, dcur, hcd,
            hnew_dist c (h6 c hcL hcv)⟩
        · rw [h9 c hcv hcL] at hcp
          obtain ⟨hnb, hpv, dp, hdp, hdc⟩ := inv.par_dist c p hcp
          exact ⟨hnb, hvold p hpv, dp, hdp, hdc⟩
    · -- levels
      refine ⟨dsr ++ new.map (fun _ => dcur + 1), ?_, ?_, ?_⟩
      · rw [h1]
        refine List.rel_append hdsr ?_
        rw [List.forall₂_map_right_iff, List.forall₂_same]
        exact hnew_dist
      · refine List.pairwise_append.mpr
          ⟨(List.pairwise_cons.mp hsort).2, pairwise_const_le _ _, ?_⟩
        intro a ha b hb
        rw [List.mem_map] at hb
        obtain ⟨c, _, rfl⟩ := hb
        exact hspan a (List.mem_cons_of_mem _ ha) dcur
          (List.mem_cons_self _ _)
      · intro d1 hd1 d2 hd2
        rcases List.mem_append.mp hd1 with hd1 | hd1 <;>
          rcases List.mem_append.mp hd2 with hd2 | hd2
        · exact hspan d1 (List.mem_cons_of_mem _ hd1) d2
            (List.mem_cons_of_mem _ hd2)
        · rw [List.mem_map] at hd2
          obtain ⟨c, _, rfl⟩ := hd2
          have := hspan d1 (List.mem_cons_of_mem _ hd1) dcur
            (List.mem_cons_self _ _)
          omega
        · rw [List.mem_map] at hd1
          obtain ⟨c, _, rfl⟩ := hd1
          have : dcur ≤ d2 := (List.pairwise_cons.mp hsort).1 d2 hd2
          omega
        · rw [List.mem_map] at hd1
          rw [List.mem_map] at hd2
          obtain ⟨c, _, rfl⟩ := hd1
          obtain ⟨c2, _, rfl⟩ := hd2
          omega
    · -- expanded
      exact hexp'
    · -- frontier
      intro z n hz hnz
      have hnzv : z ∉ visited := fun h => hnz (hvold z h)
      obtain ⟨y, hyq, a, b, hya, hyb, hab⟩ := inv.frontier z n hz hnzv
      rcases List.mem_cons.mp hyq with rfl | hyrest
      · exact hwalk z n hz hnz b y a (hvold y hcur_vis) hya hyb hab
      · refine ⟨y, ?_, a, b, hya, hyb, hab⟩
        rw [h1]
        exact List.mem_append_left _ hyrest
    · -- target_q
      intro ht
      rw [h1]
      by_cases htv : target ∈ visited
      · have := inv.target_q htv
        rcases List.mem_cons.mp this with rfl | hq
        · exact absurd rfl hct
        · exact List.mem_append_left _ hq
      · rcases (h3 target).mp ht with ht2 | ht2
        · exact absurd ht2 htv
        · exact List.mem_append_right _ (h6 target ht2 htv)
  · -- the measure decreases
    have hv'le : R.2.1.length ≤ cellCount m :=
      nodup_inRange_length (h10 inv.vis_nodup) hrng'
    have hq'len : R.1.length = rest.length + new.length := by
      rw [h1, List.length_append]
    unfold bfsMeasure
    rw [hq'len, h2] at *
    simp only [List.length_cons]
    omega

/-- Rebuilding the path `[c, parent c, ..., start]` out of the parent map:
it has exactly distance-plus-one cells and steps backward along open
adjacencies. -/
theorem chain_of_parent {m : Maze} {start : Cell} {visited : List Cell}
    {parent : List (Cell × Cell)}
    (hpar_iff : ∀ c ∈ visited, c ≠ start → ∃ p, alook parent c = some p)
    (hpar_dist : ∀ c p, alook parent c = some p →
      c ∈ nbrs m p ∧ p ∈ visited ∧
        ∃ dp, minReach m start p dp ∧ minReach m start c (dp + 1)) :
    ∀ d c, minReach m start c d → c ∈ visited → ∀ cf, d ≤ cf →
      ∃ l, parentChain parent start cf c = some l ∧ l.length = d + 1 ∧
        l.head? = some c ∧ l.getLast? = some start ∧
        List.Chain' (fun a b => a ∈ nbrs m b) l := by
  intro d
  induction d with
  | zero =>
    intro c hc hcv cf hcf
    have hcs : c = start := (minReach_zero hc).symm
    subst hcs
    have hrun : parentChain parent c cf c = some [c] := by
      cases cf <;> simp [parentChain]
    exact ⟨[c], hrun, rfl, rfl, rfl, by simp⟩
  | succ d ih =>
    intro c hc hcv cf hcf
    have hcs : c ≠ start := by
      intro h
      subst h
      have := minReach_unique hc (minReach_self m c)
      omega
    obtain ⟨p, hp⟩ := hpar_iff c hcv hcs
    obtain ⟨hnb, hpv, dp, hdp, hdc1⟩ := hpar_dist c p hp
    have hdpd : dp = d := by
      have := minReach_unique hc hdc1
      omega
    rw [hdpd] at hdp
    match cf, hcf with
    | cf + 1, hcf =>
      obtain ⟨l2, hl2, hlen, hhead, hlast, hchain⟩ :=
        ih p hdp hpv cf (by omega)
      match l2, hhead, hlast, hl2, hlen, hchain with
      | p2 :: l3, hhead2, hlast2, hl2, hlen, hchain =>
        simp only [List.head?_cons, Option.some_inj] at hhead2
        subst hhead2
        have hrun : parentChain parent start (cf + 1) c =
            some (c :: p2 :: l3) := by
          simp only [parentChain, if_neg hcs, hp, hl2]
        refine ⟨c :: p2 :: l3, hrun, by simpa using hlen, rfl, ?_, ?_⟩
        · rw [List.getLast?_cons_cons]
          exact hlast2
        · exact List.chain'_cons.mpr ⟨hnb, hchain⟩

/-- Full specification of the BFS loop: it terminates within the measure,
and either finds the target (with the invariant holding at the break) or
proves it unreachable. -/
theorem bfsLoop_spec {m : Maze} {start target : Cell} :
    ∀ (fuel : Nat) (queue visited : List Cell) (parent : List (Cell × Cell)),
      BfsInv m start target queue visited parent →
      bfsMeasure m queue visited < fuel →
      ∃ found parent2,
        m.bfsLoop target fuel queue visited parent = some (found, parent2) ∧
        (found = true →
          ∃ q2 v2, BfsInv m start target q2 v2 parent2 ∧ target ∈ v2) ∧
        (found = false → ∀ n, ¬ reachN m n start target) := by
  intro fuel
  induction fuel with
  | zero =>
    intro queue visited parent _ hmeas
    exact absurd hmeas (by omega)
  | succ fuel ih =>
    intro queue visited parent inv hmeas
    match queue with
    | [] =>
      refine ⟨false, parent, by simp [Maze.bfsLoop], by simp, ?_⟩
      intro _ n hn
      obtain ⟨d, hd, _⟩ := exists_minReach hn
      by_cases htv : target ∈ visited
      · exact absurd (inv.target_q htv) (by simp)
      · obtain ⟨y, hy, -⟩ := inv.frontier target d hd htv
        exact absurd hy (by simp)
    | current :: rest =>
      by_cases hct : current = target
      · subst hct
        refine ⟨true, parent, by simp [Maze.bfsLoop], ?_, by simp⟩
        intro _
        exact ⟨current :: rest, visited, inv,
          inv.queue_sub current (List.mem_cons_self _ _)⟩
      · obtain ⟨q2, v2, p2, hfold, hinv2, hmeas2⟩ := bfs_iterate inv hct
        obtain ⟨found, parent2, hloop, hPt, hPf⟩ :=
          ih q2 v2 p2 hinv2 (by omega)
        refine ⟨found, parent2, ?_, hPt, hPf⟩
        simp only [Maze.bfsLoop, if_neg hct, hfold]
        exact hloop

/-- Grids containing an in-range cell have at least one cell. -/
theorem cellCount_pos {m : Maze} {c : Cell} (hc : inRange m c) :
    1 ≤ cellCount m := by
  obtain ⟨hx0, hxw, hy0, hyh⟩ := hc
  unfold cellCount
  have h1 : 1 ≤ m.width.toNat := by omega
  have h2 : 1 ≤ m.height.toNat := by omega
  exact Nat.one_le_iff_ne_zero.mpr (by positivity)

/-- BFS on a reachable goal: returns a path realising the graph distance. -/
theorem shortest_path_basic_reachable {m : Maze} {s t : Cell}
    (hs : inRange m s) {n : Nat} (hreach : reachN m n s t) :
    ∃ p d, m.shortest_path_basic s t = some p ∧ minReach m s t d ∧
      p.head? = some s ∧ p.getLast? = some t ∧
      List.Chain' (fun a b => b ∈ nbrs m a) p ∧ p.length = d + 1 := by
  have hcc := cellCount_pos hs
  have hmeas : bfsMeasure m [s] [s] < m.bfsFuel := by
    unfold bfsMeasure Maze.bfsFuel
    have : cellCount m = m.width.toNat * m.height.toNat := rfl
    simp only [List.length_singleton]
    omega
  obtain ⟨found, parent2, hloop, hPt, hPf⟩ :=
    bfsLoop_spec m.bfsFuel [s] [s] [] (bfsInv_init m s t hs) hmeas
  cases found with
  | false => exact absurd hreach (hPf rfl n)
  | true =>
    obtain ⟨q2, v2, inv2, htv⟩ := hPt rfl
    obtain ⟨dt, hdt⟩ := inv2.vis_reach t htv
    have hbound : dt + 1 ≤ v2.length :=
      inv2.vis_bound t htv dt hdt
    have hvlen : v2.length ≤ cellCount m :=
      nodup_inRange_length inv2.vis_nodup inv2.vis_inRange
    have hfuel : dt ≤ m.bfsFuel := by
      unfold Maze.bfsFuel
      have : cellCount m = m.width.toNat * m.height.toNat := rfl
      omega
    obtain ⟨l, hrun, hlen, hhead, hlast, hchain⟩ :=
      chain_of_parent inv2.par_iff inv2.par_dist dt t hdt htv
        m.bfsFuel hfuel
    refine ⟨l.reverse, dt, ?_, hdt, ?_, ?_, ?_, by simp [hlen]⟩
    · unfold Maze.shortest_path_basic
      rw [hloop]
      simp only [Bool.not_true, Bool.false_eq_true, if_false, hrun]
    · rw [List.head?_reverse]
      exact hlast
    · rw [List.getLast?_reverse]
      exact hhead
    · rw [List.chain'_reverse]
      exact hchain

/-- BFS on an unreachable goal: returns the empty path. -/
theorem shortest_path_basic_unreachable {m : Maze} {s t : Cell}
    (hs : inRange m s) (hunreach : ∀ n, ¬ reachN m n s t) :
    m.shortest_path_basic s t = some [] := by
  have hcc := cellCount_pos hs
  have hmeas : bfsMeasure m [s] [s] < m.bfsFuel := by
    unfold bfsMeasure Maze.bfsFuel
    have : cellCount m = m.width.toNat * m.height.toNat := rfl
    simp only [List.length_singleton]
    omega
  obtain ⟨found, parent2, hloop, hPt, hPf⟩ :=
    bfsLoop_spec m.bfsFuel [s] [s] [] (bfsInv_init m s t hs) hmeas
  cases found with
  | true =>
    obtain ⟨q2, v2, inv2, htv⟩ := hPt rfl
    obtain ⟨dt, hdt⟩ := inv2.vis_reach t htv
    exact absurd hdt.1 (hunreach dt)
  | false =>
    unfold Maze.shortest_path_basic
    rw [hloop]
    simp

/-! ## A* correctness: the priority queue -/

theorem pqLt_iff {a b : AEntry} : pqLt a b = true ↔
    (a.1 < b.1 ∨ (a.1 = b.1 ∧ (a.2.1 < b.2.1 ∨
      (a.2.1 = b.2.1 ∧ a.2.2 < b.2.2)))) := by
  simp [pqLt]

theorem pqLt_irrefl (a : AEntry) : pqLt a a = false := by
  rw [← Bool.not_eq_true]
  rw [pqLt_iff]
  omega

theorem pqLt_trans {a b c : AEntry} (h1 : pqLt a b = true)
    (h2 : pqLt b c = true) : pqLt a c = true := by
  rw [pqLt_iff] at *
  omega

theorem pqLt_of_lt_of_nlt {a b c : AEntry} (h1 : pqLt a b = true)
    (h2 : pqLt c b = false) : pqLt a c = true := by
  rw [pqLt_iff] at *
  rw [← Bool.not_eq_true, pqLt_iff] at h2
  omega

theorem pqMin_cons (e y : AEntry) (l : List AEntry) :
    pqMin e (y :: l) = pqMin (if pqLt y e then y else e) l := rfl

theorem pqMin_mem (e : AEntry) (l : List AEntry) : pqMin e l ∈ e :: l := by
  induction l generalizing e with
  | nil => simp [pqMin]
  | cons y l ih =>
    rw [pqMin_cons]
    have h2 := ih (if pqLt y e then y else e)
    rcases List.mem_cons.mp h2 with h | h
    · rw [h]
      split <;> simp
    · exact List.mem_cons_of_mem _ (List.mem_cons_of_mem _ h)

theorem pqMin_min (e : AEntry) (l : List AEntry) :
    ∀ x ∈ e :: l, pqLt x (pqMin e l) = false := by
  induction l generalizing e with
  | nil =>
    intro x hx
    rw [List.mem_singleton] at hx
    subst hx
    simpa [pqMin] using pqLt_irrefl x
  | cons y l ih =>
    intro x hx
    rw [pqMin_cons]
    by_cases hye : pqLt y e = true
    · rw [if_pos hye]
      have ihm := ih y
      rcases List.mem_cons.mp hx with rfl | hx2
      · have hy := ihm y (List.mem_cons_self _ _)
        rw [← Bool.not_eq_true]
        intro hxm
        have h3 := pqLt_trans hye hxm
        rw [h3] at hy
        exact Bool.noConfusion hy
      · rcases List.mem_cons.mp hx2 with rfl | hx3
        · exact ihm x (List.mem_cons_self _ _)
        · exact ihm x (List.mem_cons_of_mem _ hx3)
    · rw [if_neg hye]
      have hye2 : pqLt y e = false := by
        revert hye
        cases pqLt y e <;> simp
      have ihm := ih e
      rcases List.mem_cons.mp hx with rfl | hx2
      · exact ihm x (List.mem_cons_self _ _)
      · rcases List.mem_cons.mp hx2 with rfl | hx3
        · have he := ihm e (List.mem_cons_self _ _)
          rw [← Bool.not_eq_true]
          intro hxm
          have h3 := pqLt_of_lt_of_nlt hxm he
          rw [h3] at hye2
          exact Bool.noConfusion hye2
        · exact ihm x (List.mem_cons_of_mem _ hx3)

theorem removeOne_sub {v : AEntry} {l : List AEntry} :
    ∀ x ∈ removeOne v l, x ∈ l := by
  induction l with
  | nil => simp [removeOne]
  | cons y l ih =>
    intro x hx
    rw [removeOne] at hx
    split at hx
    · exact List.mem_cons_of_mem _ hx
    · rcases List.mem_cons.mp hx with rfl | hx
      · exact List.mem_cons_self _ _
      · exact List.mem_cons_of_mem _ (ih x hx)

theorem removeOne_mem_of_ne {v x : AEntry} {l : List AEntry}
    (hx : x ∈ l) (hne : x ≠ v) : x ∈ removeOne v l := by
  induction l with
  | nil => exact absurd hx (by simp)
  | cons y l ih =>
    rw [removeOne]
    split
    · rcases List.mem_cons.mp hx with rfl | hx
      · rename_i hyv
        exact absurd hyv hne
      · exact hx
    · rcases List.mem_cons.mp hx with rfl | hx
      · exact List.mem_cons_self _ _
      · exact List.mem_cons_of_mem _ (ih hx)

theorem removeOne_length {v : AEntry} {l : List AEntry} (hv : v ∈ l) :
    (removeOne v l).length + 1 = l.length := by
  induction l with
  | nil => exact absurd hv (by simp)
  | cons y l ih =>
    rw [removeOne]
    split
    · simp
    · rename_i hne
      rcases List.mem_cons.mp hv with rfl | hv
      · exact absurd rfl hne
      · simpa using ih hv

theorem heappop_none {l : List AEntry} (h : heappop l = none) : l = [] := by
  cases l with
  | nil => rfl
  | cons e rest =>
    rw [heappop] at h
    exact Option.noConfusion h

theorem heappop_spec {l : List AEntry} {v : AEntry} {l2 : List AEntry}
    (h : heappop l = some (v, l2)) :
    v ∈ l ∧ l2 = removeOne v l ∧ (∀ x ∈ l, pqLt x v = false) ∧
      l2.length + 1 = l.length := by
  cases l with
  | nil => exact Option.noConfusion h
  | cons e rest =>
    rw [heappop] at h
    simp only [Option.some.injEq, Prod.mk.injEq] at h
    obtain ⟨hv, hl2⟩ := h
    subst hv
    subst hl2
    have hmem := pqMin_mem e rest
    exact ⟨hmem, rfl, pqMin_min e rest, removeOne_length hmem⟩

/-! ## A* groundwork: map domains and the potential function -/

theorem alook_cons_self {β : Type} (g : List (Cell × β)) (c : Cell) (v : β) :
    alook ((c, v) :: g) c = some v := by
  simp [alook]

theorem alook_cons_ne {β : Type} (g : List (Cell × β)) {c c2 : Cell} (v : β)
    (h : c ≠ c2) : alook ((c, v) :: g) c2 = alook g c2 := by
  simp [alook, h]

theorem alook_none_iff {β : Type} {g : List (Cell × β)} {x : Cell} :
    alook g x = none ↔ x ∉ g.map Prod.fst := by
  induction g with
  | nil => simp [alook]
  | cons p g ih =>
    rw [alook]
    by_cases h : p.1 = x
    · subst h
      simp
    · rw [if_neg h, List.map_cons, List.mem_cons, ih]
      constructor
      · intro h2 h3
        rcases h3 with h3 | h3
        · exact h h3.symm
        · exact h2 h3
      · intro h2 h3
        exact h2 (Or.inr h3)

theorem alook_keys_some {β : Type} {g : List (Cell × β)} {x : Cell}
    (h : x ∈ g.map Prod.fst) : ∃ v, alook g x = some v := by
  cases hl : alook g x with
  | none => exact absurd h (alook_none_iff.mp hl)
  | some v => exact ⟨v, rfl⟩

theorem alook_some_keys {β : Type} {g : List (Cell × β)} {x : Cell} {v : β}
    (h : alook g x = some v) : x ∈ g.map Prod.fst := by
  by_contra h2
  rw [← alook_none_iff] at h2
  rw [h] at h2
  exact Option.noConfusion h2

/-- Number of distinct keys of the g-cost map. -/
def gdom (g : List (Cell × Nat)) : Nat := (g.map Prod.fst).dedup.length

theorem gdom_cons_mem {g : List (Cell × Nat)} {x : Cell} (v : Nat)
    (h : x ∈ g.map Prod.fst) : gdom ((x, v) :: g) = gdom g := by
  unfold gdom
  rw [List.map_cons, List.dedup_cons_of_mem h]

theorem gdom_cons_not_mem {g : List (Cell × Nat)} {x : Cell} (v : Nat)
    (h : x ∉ g.map Prod.fst) : gdom ((x, v) :: g) = gdom g + 1 := by
  unfold gdom
  rw [List.map_cons, List.dedup_cons_of_not_mem h, List.length_cons]

theorem gdom_le_cellCount {m : Maze} {g : List (Cell × Nat)}
    (h : ∀ c v, alook g c = some v → inRange m c) : gdom g ≤ cellCount m := by
  apply nodup_inRange_length (List.nodup_dedup _)
  intro c hc
  rw [List.mem_dedup] at hc
  obtain ⟨v, hv⟩ := alook_keys_some hc
  exact h c v hv

/-- The in-range grid cells as a finite set. -/
def rangeSet (m : Maze) : Finset Cell :=
  Finset.Ico 0 m.width ×ˢ Finset.Ico 0 m.height

theorem mem_rangeSet {m : Maze} {c : Cell} :
    c ∈ rangeSet m ↔ inRange m c := by
  rw [rangeSet, Finset.mem_product, Finset.mem_Ico, Finset.mem_Ico]
  unfold inRange
  tauto

/-- The potential of one cell: its current g-cost, or `cellCount` while
undiscovered. -/
def phiCell (m : Maze) (g : List (Cell × Nat)) (c : Cell) : Nat :=
  match alook g c with
  | some v => v
  | none => cellCount m

/-- The A* termination potential: total remaining g-cost slack. -/
def phi (m : Maze) (g : List (Cell × Nat)) : Nat :=
  ∑ c ∈ rangeSet m, phiCell m g c

theorem phi_decrease {m : Maze} {g g2 : List (Cell × Nat)}
    {pushed : List Cell}
    (hnd : pushed.Nodup) (hrange : ∀ x ∈ pushed, inRange m x)
    (hle : ∀ c, phiCell m g2 c ≤ phiCell m g c)
    (hdec : ∀ x ∈ pushed, phiCell m g2 x + 1 ≤ phiCell m g x) :
    phi m g2 + pushed.length ≤ phi m g := by
  classical
  have hsub : pushed.toFinset ⊆ rangeSet m := by
    intro c hc
    rw [List.mem_toFinset] at hc
    exact mem_rangeSet.mpr (hrange c hc)
  have hsplit2 : ∑ c ∈ rangeSet m \ pushed.toFinset, phiCell m g2 c +
      ∑ c ∈ pushed.toFinset, phiCell m g2 c = phi m g2 :=
    Finset.sum_sdiff hsub
  have hsplit : ∑ c ∈ rangeSet m \ pushed.toFinset, phiCell m g c +
      ∑ c ∈ pushed.toFinset, phiCell m g c = phi m g :=
    Finset.sum_sdiff hsub
  have h1 : ∑ c ∈ rangeSet m \ pushed.toFinset, phiCell m g2 c ≤
      ∑ c ∈ rangeSet m \ pushed.toFinset, phiCell m g c :=
    Finset.sum_le_sum fun c _ => hle c
  have h2 : ∑ c ∈ pushed.toFinset, phiCell m g2 c + pushed.length ≤
      ∑ c ∈ pushed.toFinset, phiCell m g c := by
    have hpoint : ∑ c ∈ pushed.toFinset, (phiCell m g2 c + 1) ≤
        ∑ c ∈ pushed.toFinset, phiCell m g c := by
      apply Finset.sum_le_sum
      intro c hc
      rw [List.mem_toFinset] at hc
      exact hdec c hc
    rw [Finset.sum_add_distrib] at hpoint
    have hcard : pushed.toFinset.card = pushed.length :=
      List.toFinset_card_of_nodup hnd
    simp only [Finset.sum_const, smul_eq_mul, mul_one] at hpoint
    omega
  omega

/-- Characterisation of one A* relaxation fold: exactly the strictly
improved (or fresh) neighbours `pushed` get g-cost `gc + 1`, a push of
`(gc + 1 + h, x)`, and parent `current`; everything else is untouched. -/
theorem astar_fold (target current : Cell) (gc : Nat) :
    ∀ (L : List Cell) (q : List AEntry) (g : List (Cell × Nat))
      (p : List (Cell × Cell)),
    ∃ pushed : List Cell,
      (∀ e, e ∈ (L.foldl (astarStep target current gc) (q, g, p)).1 ↔
        e ∈ q ∨ ∃ x ∈ pushed, e = (gc + 1 + manhattan x target, x)) ∧
      (∀ x ∈ pushed, x ∈ L) ∧
      pushed.Nodup ∧
      (∀ x, x ∉ pushed →
        alook (L.foldl (astarStep target current gc) (q, g, p)).2.1 x =
          alook g x) ∧
      (∀ x ∈ pushed,
        alook (L.foldl (astarStep target current gc) (q, g, p)).2.1 x =
          some (gc + 1)) ∧
      (∀ x ∈ pushed,
        alook g x = none ∨ ∃ v, alook g x = some v ∧ gc + 1 < v) ∧
      (∀ x ∈ L, x ∉ pushed → ∃ v, alook g x = some v ∧ v ≤ gc + 1) ∧
      (∀ x, x ∉ pushed →
        alook (L.foldl (astarStep target current gc) (q, g, p)).2.2 x =
          alook p x) ∧
      (∀ x ∈ pushed,
        alook (L.foldl (astarStep target current gc) (q, g, p)).2.2 x =
          some current) ∧
      (L.foldl (astarStep target current gc) (q, g, p)).1.length =
        q.length + pushed.length := by
  intro L
  induction L with
  | nil =>
    intro q g p
    exact ⟨[], by simp, by simp, List.nodup_nil, fun x _ => rfl, by simp,
      by simp, by simp, fun x _ => rfl, by simp, by simp⟩
  | cons x0 L ih =>
    intro q g p
    rw [List.foldl_cons]
    by_cases himp : (match alook g x0 with
        | none => true
        | some gn => decide (gc + 1 < gn)) = true
    · -- x0 is relaxed
      have hstep : astarStep target current gc (q, g, p) x0 =
          ((gc + 1 + manhattan x0 target, x0) :: q,
            (x0, gc + 1) :: g, (x0, current) :: p) := by
        rw [astarStep]
        simp only [himp, if_true]
      rw [hstep]
      obtain ⟨pushed, f1, f2, f3, f4, f5, f6, f7, f8, f9, f13⟩ :=
        ih ((gc + 1 + manhattan x0 target, x0) :: q)
          ((x0, gc + 1) :: g) ((x0, current) :: p)
      have hx0np : x0 ∉ pushed := by
        intro hmem
        rcases f6 x0 hmem with hc | ⟨v, hv, hlt⟩
        · rw [alook_cons_self] at hc
          exact Option.noConfusion hc
        · rw [alook_cons_self] at hv
          have : v = gc + 1 := (Option.some_inj.mp hv).symm
          omega
      refine ⟨x0 :: pushed, ?_, ?_, List.nodup_cons.mpr ⟨hx0np, f3⟩,
        ?_, ?_, ?_, ?_, ?_, ?_, ?_⟩
      · intro e
        rw [f1]
        constructor
        · rintro (he | he)
          · rcases List.mem_cons.mp he with rfl | he
            · exact Or.inr ⟨x0, List.mem_cons_self _ _, rfl⟩
            · exact Or.inl he
          · obtain ⟨x, hx, rfl⟩ := he
            exact Or.inr ⟨x, List.mem_cons_of_mem _ hx, rfl⟩
        · rintro (he | he)
          · exact Or.inl (List.mem_cons_of_mem _ he)
          · obtain ⟨x, hx, rfl⟩ := he
            rcases List.mem_cons.mp hx with rfl | hx
            · exact Or.inl (List.mem_cons_self _ _)
            · exact Or.inr ⟨x, hx, rfl⟩
      · intro x hx
        rcases List.mem_cons.mp hx with rfl | hx
        · exact List.mem_cons_self _ _
        · exact List.mem_cons_of_mem _ (f2 x hx)
      · intro x hx
        have hxp : x ∉ pushed := fun h => hx (List.mem_cons_of_mem _ h)
        have hxx0 : x0 ≠ x := fun h => hx (h ▸ List.mem_cons_self _ _)
        rw [f4 x hxp, alook_cons_ne _ _ hxx0]
      · intro x hx
        rcases List.mem_cons.mp hx with rfl | hx
        · rw [f4 x hx0np, alook_cons_self]
        · exact f5 x hx
      · intro x hx
        rcases List.mem_cons.mp hx with rfl | hx
        · revert himp
          cases hl : alook g x with
          | none => intro _; exact Or.inl rfl
          | some gn =>
            intro himp
            simp only [decide_eq_true_eq] at himp
            exact Or.inr ⟨gn, rfl, himp⟩
        · have hxx0 : x0 ≠ x := fun h => hx0np (h ▸ hx)
          rcases f6 x hx with hc | ⟨v, hv, hlt⟩
          · rw [alook_cons_ne _ _ hxx0] at hc
            exact Or.inl hc
          · rw [alook_cons_ne _ _ hxx0] at hv
            exact Or.inr ⟨v, hv, hlt⟩
      · intro x hxL hxp
        have hxx0 : x ≠ x0 := fun h => hxp (h ▸ List.mem_cons_self _ _)
        have hxp2 : x ∉ pushed := fun h => hxp (List.mem_cons_of_mem _ h)
        rcases List.mem_cons.mp hxL with rfl | hxL
        · exact absurd rfl hxx0
        · obtain ⟨v, hv, hle⟩ := f7 x hxL hxp2
          rw [alook_cons_ne _ _ (fun h => hxx0 h.symm)] at hv
          exact ⟨v, hv, hle⟩
      · intro x hx
        have hxp : x ∉ pushed := fun h => hx (List.mem_cons_of_mem _ h)
        have hxx0 : x0 ≠ x := fun h => hx (h ▸ List.mem_cons_self _ _)
        rw [f8 x hxp, alook_cons_ne _ _ hxx0]
      · intro x hx
        rcases List.mem_cons.mp hx with rfl | hx
        · rw [f8 x hx0np, alook_cons_self]
        · exact f9 x hx
      · rw [f13]
        simp only [List.length_cons]
        omega
    · -- x0 is skipped
      have hstep : astarStep target current gc (q, g, p) x0 = (q, g, p) := by
        rw [astarStep]
        simp only [himp, Bool.false_eq_true, if_false]
      rw [hstep]
      obtain ⟨pushed, f1, f2, f3, f4, f5, f6, f7, f8, f9, f13⟩ := ih q g p
      refine ⟨pushed, f1, ?_, f3, f4, f5, f6, ?_, f8, f9, f13⟩
      · intro x hx
        exact List.mem_cons_of_mem _ (f2 x hx)
      · intro x hxL hxp
        rcases List.mem_cons.mp hxL with rfl | hxL
        · revert himp
          cases hl : alook g x with
          | none => intro himp; exact absurd rfl himp
          | some gn =>
            intro himp
            simp only [decide_eq_true_eq] at himp
            exact ⟨gn, rfl, by omega⟩
        · exact f7 x hxL hxp

/-- The A* loop invariant.  `g` holds genuine walk lengths that only ever
shrink; every queued entry over-approximates `g + h`; and every cell whose
g-cost is already optimal either still has a cheap queued entry or has
fully relaxed its neighbours. -/
structure AInv (m : Maze) (start target : Cell) (open_set : List AEntry)
    (g : List (Cell × Nat)) (parent : List (Cell × Cell)) : Prop where
  g_start : alook g start = some 0
  g_reach : ∀ c v, alook g c = some v → reachN m v start c
  g_inRange : ∀ c v, alook g c = some v → inRange m c
  g_bound : ∀ c v, alook g c = some v → v + 1 ≤ gdom g
  open_g : ∀ f c, (f, c) ∈ open_set → ∃ v, alook g c = some v ∧
      (v + manhattan c target ≤ f ∨ (f = 0 ∧ c = start))
  inv2 : ∀ c n, minReach m start c n → alook g c = some n →
      ((∃ f, (f, c) ∈ open_set ∧ f ≤ n + manhattan c target) ∨
        ∀ nb ∈ nbrs m c, ∃ vn, alook g nb = some vn ∧ vn ≤ n + 1)
  par_start : alook parent start = none
  par_iff : ∀ c v, alook g c = some v → c ≠ start →
      ∃ p2, alook parent c = some p2
  par_g : ∀ c p2, alook parent c = some p2 → c ∈ nbrs m p2 ∧
      ∃ vc vp, alook g c = some vc ∧ alook g p2 = some vp ∧ vp < vc

theorem aInv_init (m : Maze) (start target : Cell) (hs : inRange m start) :
    AInv m start target [(0, start)] [(start, 0)] [] := by
  have halook : ∀ c : Cell, alook [(start, (0:Nat))] c =
      if start = c then some 0 else none := by
    intro c
    rw [alook]
    split <;> rfl
  refine ⟨?_, ?_, ?_, ?_, ?_, ?_, rfl, ?_, ?_⟩
  · rw [halook, if_pos rfl]
  · intro c v h
    rw [halook] at h
    split at h
    · rename_i heq
      subst heq
      have : v = 0 := (Option.some_inj.mp h).symm
      subst this
      rfl
    · exact Option.noConfusion h
  · intro c v h
    rw [halook] at h
    split at h
    · rename_i heq
      subst heq
      exact hs
    · exact Option.noConfusion h
  · intro c v h
    rw [halook] at h
    split at h
    · have : v = 0 := (Option.some_inj.mp h).symm
      subst this
      simp [gdom]
    · exact Option.noConfusion h
  · intro f c h
    rw [List.mem_singleton, Prod.mk.injEq] at h
    obtain ⟨hf, hc⟩ := h
    subst hf
    subst hc
    exact ⟨0, by rw [halook, if_pos rfl], Or.inr ⟨rfl, rfl⟩⟩
  · intro c n hmin h
    rw [halook] at h
    split at h
    · rename_i heq
      subst heq
      have hn : n = 0 := (Option.some_inj.mp h).symm
      subst hn
      exact Or.inl ⟨0, List.mem_singleton_self _, by omega⟩
    · exact Option.noConfusion h
  · intro c v h hne
    rw [halook] at h
    split at h
    · rename_i heq
      exact absurd heq.symm hne
    · exact Option.noConfusion h
  · intro c p2 h
    exact absurd h (by simp [alook])

/-- The frontier property of a live A* state: for a reachable target,
either its g-cost is already exactly the distance, or an entry at most the
distance is still queued. -/
theorem astar_frontier {m : Maze} {start target : Cell}
    {open_set : List AEntry} {g : List (Cell × Nat)}
    {parent : List (Cell × Cell)}
    (inv : AInv m start target open_set g parent) :
    ∀ n, minReach m start target n →
      alook g target = some n ∨ ∃ f y, (f, y) ∈ open_set ∧ f ≤ n := by
  intro n hmin
  have hwalk : ∀ b y a, minReach m start y a → alook g y = some a →
      reachN m b y target → a + b = n →
      alook g target = some n ∨ ∃ f y2, (f, y2) ∈ open_set ∧ f ≤ n := by
    intro b
    induction b with
    | zero =>
      intro y a hya hgy hyb hsum
      have hyt : y = target := hyb
      subst hyt
      have : a = n := by omega
      subst this
      exact Or.inl hgy
    | succ b ih =>
      intro y a hya hgy hyb hsum
      rcases inv.inv2 y a hya hgy with ⟨f, hf, hle⟩ | hA
      · refine Or.inr ⟨f, y, hf, ?_⟩
        have hman : manhattan y target ≤ b + 1 := reachN_manhattan hyb
        omega
      · obtain ⟨u, hu, hru⟩ := hyb
        have hmu : minReach m start u (a + 1) :=
          minReach_step hya hu hru hmin (by omega)
        obtain ⟨vu, hgu, hvu⟩ := hA u hu
        have hvu_ge : a + 1 ≤ vu := hmu.2 vu (inv.g_reach u vu hgu)
        have hveq : vu = a + 1 := by omega
        subst hveq
        exact ih u (a + 1) hmu hgu hru (by omega)
  exact hwalk n start 0 (minReach_self m start) inv.g_start hmin.1 (by omega)

/-- What survives of the A* invariant when the loop stops, break or
exhaustion: everything path reconstruction and the distance argument
need. -/
structure AFinal (m : Maze) (start target : Cell) (g : List (Cell × Nat))
    (parent : List (Cell × Cell)) : Prop where
  g_reach : ∀ c v, alook g c = some v → reachN m v start c
  g_small : ∀ c v, alook g c = some v → v + 1 ≤ cellCount m
  par_start : alook parent start = none
  par_iff : ∀ c v, alook g c = some v → c ≠ start →
      ∃ p2, alook parent c = some p2
  par_g : ∀ c p2, alook parent c = some p2 → c ∈ nbrs m p2 ∧
      ∃ vc vp, alook g c = some vc ∧ alook g p2 = some vp ∧ vp < vc
  target_dist : ∀ n, minReach m start target n → alook g target = some n

/-- Path reconstruction out of the A* parent map: the strictly decreasing
g-costs along the chain bound its length, so the walk back to `start`
terminates within any fuel above the g-cost. -/
theorem achain {m : Maze} {start : Cell} {g : List (Cell × Nat)}
    {parent : List (Cell × Cell)}
    (hpar_iff : ∀ c v, alook g c = some v → c ≠ start →
      ∃ p2, alook parent c = some p2)
    (hpar_g : ∀ c p2, alook parent c = some p2 → c ∈ nbrs m p2 ∧
      ∃ vc vp, alook g c = some vc ∧ alook g p2 = some vp ∧ vp < vc) :
    ∀ (cf : Nat) (c : Cell) (vc : Nat), alook g c = some vc → vc ≤ cf →
      ∃ l, parentChain parent start cf c = some l ∧ l.head? = some c ∧
        l.getLast? = some start ∧ List.Chain' (fun a b => a ∈ nbrs m b) l ∧
        l.length ≤ vc + 1 := by
  intro cf
  induction cf with
  | zero =>
    intro c vc hc hle
    have hcs : c = start := by
      by_contra hne
      obtain ⟨p2, hp2⟩ := hpar_iff c vc hc hne
      obtain ⟨-, vc2, vp, hvc2, hvp, hlt⟩ := hpar_g c p2 hp2
      have : vc2 = vc := by
        rw [hc] at hvc2
        exact (Option.some_inj.mp hvc2).symm
      omega
    subst hcs
    exact ⟨[c], by simp [parentChain], rfl, rfl, by simp, by simp⟩
  | succ cf ih =>
    intro c vc hc hle
    by_cases hcs : c = start
    · subst hcs
      exact ⟨[c], by simp [parentChain], rfl, rfl, by simp, by simp⟩
    · obtain ⟨p2, hp2⟩ := hpar_iff c vc hc hcs
      obtain ⟨hnb, vc2, vp, hvc2, hvp, hlt⟩ := hpar_g c p2 hp2
      have hvceq : vc2 = vc := by
        rw [hc] at hvc2
        exact (Option.some_inj.mp hvc2).symm
      subst hvceq
      obtain ⟨l2, hl2, hhead, hlast, hchain, hlen⟩ :=
        ih p2 vp hvp (by omega)
      have hrun : parentChain parent start (cf + 1) c = some (c :: l2) := by
        simp only [parentChain, if_neg hcs, hp2, hl2]
      match l2, hhead, hlast, hl2, hlen, hchain with
      | p3 :: l3, hhead2, hlast2, hl2, hlen, hchain =>
        simp only [List.head?_cons, Option.some_inj] at hhead2
        subst hhead2
        refine ⟨c :: p3 :: l3, hrun, rfl, ?_, ?_, ?_⟩
        · rw [List.getLast?_cons_cons]
          exact hlast2
        · exact List.chain'_cons.mpr ⟨hnb, hchain⟩
        · simp only [List.length_cons] at *
          omega

/-- One full A* iteration (pop an entry whose cell is not the target,
relax its neighbours) preserves the invariant and strictly decreases the
potential-plus-queue measure.  In particular the popped cell always has a
g-cost, so the source's `g_cost[current]` lookup cannot raise. -/
theorem astar_iterate {m : Maze} {start target current : Cell} {f0 : Nat}
    {open_set rest : List AEntry} {g : List (Cell × Nat)}
    {parent : List (Cell × Cell)}
    (inv : AInv m start target open_set g parent)
    (hpop : heappop open_set = some ((f0, current), rest))
    (hct : current ≠ target) :
    ∃ gc, alook g current = some gc ∧
    ∃ q2 g2 p2,
      (nbrs m current).foldl (astarStep target current gc)
        (rest, g, parent) = (q2, g2, p2) ∧
      AInv m start target q2 g2 p2 ∧
      phi m g2 + q2.length < phi m g + open_set.length := by
  obtain ⟨hmem, hrest, hmin, hlen⟩ := heappop_spec hpop
  obtain ⟨gc, hgc, hcase⟩ := inv.open_g f0 current hmem
  refine ⟨gc, hgc, ?_⟩
  have hcur_rng : inRange m current := inv.g_inRange current gc hgc
  have hLrng : ∀ x ∈ nbrs m current, inRange m x :=
    fun x hx => nbrs_inRange hcur_rng hx
  obtain ⟨pushed, f1, f2, f3, f4, f5, f6, f7, f8, f9, f13⟩ :=
    astar_fold target current gc (nbrs m current) rest g parent
  set R := (nbrs m current).foldl (astarStep target current gc)
    (rest, g, parent) with hR
  have hstart_np : start ∉ pushed := by
    intro h
    rcases f6 start h with hc | ⟨v, hv, hlt⟩
    · rw [inv.g_start] at hc
      exact Option.noConfusion hc
    · rw [inv.g_start] at hv
      have hv0 : (0:Nat) = v := Option.some_inj.mp hv
      omega
  have hcur_np : current ∉ pushed := by
    intro h
    rcases f6 current h with hc | ⟨v, hv, hlt⟩
    · rw [hgc] at hc
      exact Option.noConfusion hc
    · rw [hgc] at hv
      have hveq : gc = v := Option.some_inj.mp hv
      omega
  have hmono : ∀ c v, alook g c = some v →
      ∃ v2, alook R.2.1 c = some v2 ∧ v2 ≤ v := by
    intro c v hv
    by_cases hp : c ∈ pushed
    · refine ⟨gc + 1, f5 c hp, ?_⟩
      rcases f6 c hp with hc | ⟨v2, hv2, hlt⟩
      · rw [hv] at hc
        exact Option.noConfusion hc
      · rw [hv] at hv2
        have hveq : v = v2 := Option.some_inj.mp hv2
        omega
    · exact ⟨v, by rw [f4 c hp]; exact hv, Nat.le_refl v⟩
  have hkey : ∀ c, c ∈ g.map Prod.fst → c ∈ R.2.1.map Prod.fst := by
    intro c hcm
    obtain ⟨v, hv⟩ := alook_keys_some hcm
    obtain ⟨v2, hv2, -⟩ := hmono c v hv
    exact alook_some_keys hv2
  have hgdom_mono : gdom g ≤ gdom R.2.1 := by
    unfold gdom
    rw [← List.card_toFinset, ← List.card_toFinset]
    apply Finset.card_le_card
    intro c hcm
    rw [List.mem_toFinset] at *
    exact hkey c hcm
  have hgdom_fresh : ∀ c ∈ pushed, alook g c = none →
      gdom g + 1 ≤ gdom R.2.1 := by
    intro c hcp hcn
    unfold gdom
    rw [← List.card_toFinset, ← List.card_toFinset]
    have hcknot : c ∉ (g.map Prod.fst).toFinset := by
      rw [List.mem_toFinset]
      exact alook_none_iff.mp hcn
    have hsub : insert c (g.map Prod.fst).toFinset ⊆
        (R.2.1.map Prod.fst).toFinset := by
      intro x hx
      rcases Finset.mem_insert.mp hx with rfl | hx
      · rw [List.mem_toFinset]
        exact alook_some_keys (f5 x hcp)
      · rw [List.mem_toFinset] at *
        exact hkey x hx
    have hcard := Finset.card_le_card hsub
    rw [Finset.card_insert_of_not_mem hcknot] at hcard
    omega
  have hgc_bound : gc + 1 ≤ gdom g := inv.g_bound current gc hgc
  have hbound2 : ∀ c v, alook R.2.1 c = some v → v + 1 ≤ gdom R.2.1 := by
    intro c v hv
    by_cases hp : c ∈ pushed
    · have hveq : v = gc + 1 := by
        rw [f5 c hp] at hv
        exact (Option.some_inj.mp hv).symm
      subst hveq
      rcases f6 c hp with hc | ⟨v2, hv2, hlt⟩
      · have := hgdom_fresh c hp hc
        omega
      · have := inv.g_bound c v2 hv2
        omega
    · rw [f4 c hp] at hv
      have := inv.g_bound c v hv
      omega
  have hrng2 : ∀ c v, alook R.2.1 c = some v → inRange m c := by
    intro c v hv
    by_cases hp : c ∈ pushed
    · exact hLrng c (f2 c hp)
    · rw [f4 c hp] at hv
      exact inv.g_inRange c v hv
  refine ⟨R.1, R.2.1, R.2.2, rfl, ?_, ?_⟩
  · refine ⟨?_, ?_, hrng2, hbound2, ?_, ?_, ?_, ?_, ?_⟩
    · rw [f4 start hstart_np]
      exact inv.g_start
    · intro c v hv
      by_cases hp : c ∈ pushed
      · have hveq : v = gc + 1 := by
          rw [f5 c hp] at hv
          exact (Option.some_inj.mp hv).symm
        subst hveq
        have h1 : reachN m gc start current := inv.g_reach current gc hgc
        have h2 : reachN m 1 current c := ⟨c, f2 c hp, rfl⟩
        simpa using h1.trans h2
      · rw [f4 c hp] at hv
        exact inv.g_reach c v hv
    · intro f c hf
      rcases (f1 (f, c)).mp hf with hold | ⟨x, hx, heq⟩
      · rw [hrest] at hold
        have hmem2 := removeOne_sub (f, c) hold
        obtain ⟨v, hv, hc2⟩ := inv.open_g f c hmem2
        obtain ⟨v2, hv2, hle2⟩ := hmono c v hv
        refine ⟨v2, hv2, ?_⟩
        rcases hc2 with h | h
        · exact Or.inl (by omega)
        · exact Or.inr h
      · rw [Prod.mk.injEq] at heq
        obtain ⟨hfe, hce⟩ := heq
        refine ⟨gc + 1, by rw [hce]; exact f5 x hx, Or.inl ?_⟩
        rw [hfe, hce]
    · intro c n hmin2 hv
      by_cases hp : c ∈ pushed
      · have hneq : n = gc + 1 := by
          rw [f5 c hp] at hv
          exact (Option.some_inj.mp hv).symm
        subst hneq
        exact Or.inl ⟨gc + 1 + manhattan c target,
          (f1 _).mpr (Or.inr ⟨c, hp, rfl⟩), Nat.le_refl _⟩
      · rw [f4 c hp] at hv
        by_cases hcc : c = current
        · have hneq : n = gc := by
            rw [hcc, hgc] at hv
            exact (Option.some_inj.mp hv).symm
          right
          intro nb hnb
          rw [hcc] at hnb
          by_cases hnp : nb ∈ pushed
          · exact ⟨gc + 1, f5 nb hnp, by omega⟩
          · obtain ⟨v2, hv2, hle2⟩ := f7 nb hnb hnp
            exact ⟨v2, by rw [f4 nb hnp]; exact hv2, by omega⟩
        · rcases inv.inv2 c n hmin2 hv with ⟨f, hf, hle⟩ | hA
          · have hne2 : (f, c) ≠ (f0, current) := by
              intro h
              rw [Prod.mk.injEq] at h
              exact hcc h.2
            have hsurv : (f, c) ∈ removeOne (f0, current) open_set :=
              removeOne_mem_of_ne hf hne2
            rw [← hrest] at hsurv
            exact Or.inl ⟨f, (f1 _).mpr (Or.inl hsurv), hle⟩
          · right
            intro nb hnb
            obtain ⟨vn, hvn, hle2⟩ := hA nb hnb
            obtain ⟨v2, hv2, hle3⟩ := hmono nb vn hvn
            exact ⟨v2, hv2, by omega⟩
    · rw [f8 start hstart_np]
      exact inv.par_start
    · intro c v hv hcs
      by_cases hp : c ∈ pushed
      · exact ⟨current, f9 c hp⟩
      · rw [f4 c hp] at hv
        obtain ⟨p2, hp2⟩ := inv.par_iff c v hv hcs
        exact ⟨p2, by rw [f8 c hp]; exact hp2⟩
    · intro c p2 hp2
      by_cases hp : c ∈ pushed
      · have hpc : p2 = current := by
          rw [f9 c hp] at hp2
          exact (Option.some_inj.mp hp2).symm
        refine ⟨by rw [hpc]; exact f2 c hp, gc + 1, gc, f5 c hp, ?_, by omega⟩
        rw [hpc, f4 current hcur_np]
        exact hgc
      · rw [f8 c hp] at hp2
        obtain ⟨hnb, vc, vp, hvc, hvp, hlt⟩ := inv.par_g c p2 hp2
        obtain ⟨vp2, hvp2, hle2⟩ := hmono p2 vp hvp
        refine ⟨hnb, vc, vp2, ?_, hvp2, by omega⟩
        rw [f4 c hp]
        exact hvc
  · have hccg : gdom g ≤ cellCount m := gdom_le_cellCount inv.g_inRange
    have hccg2 : gdom R.2.1 ≤ cellCount m := gdom_le_cellCount hrng2
    have hphile : ∀ c, phiCell m R.2.1 c ≤ phiCell m g c := by
      intro c
      by_cases hp : c ∈ pushed
      · simp only [phiCell, f5 c hp]
        rcases f6 c hp with hc | ⟨v, hv, hlt⟩
        · simp only [hc]
          omega
        · simp only [hv]
          omega
      · simp only [phiCell, f4 c hp]
        exact Nat.le_refl _
    have hphidec : ∀ x ∈ pushed, phiCell m R.2.1 x + 1 ≤ phiCell m g x := by
      intro x hx
      simp only [phiCell, f5 x hx]
      rcases f6 x hx with hc | ⟨v, hv, hlt⟩
      · simp only [hc]
        have := hgdom_fresh x hx hc
        omega
      · simp only [hv]
        omega
    have hphi := phi_decrease f3 (fun x hx => hLrng x (f2 x hx))
      hphile hphidec
    omega

theorem rangeSet_card (m : Maze) : (rangeSet m).card = cellCount m := by
  rw [rangeSet, Finset.card_product, Int.card_Ico, Int.card_Ico]
  simp [cellCount]

/-- The potential of the initial singleton g-cost map is at most
`cellCount²`, which with the queue length bounds the whole A* run. -/
theorem phi_init_le (m : Maze) (s : Cell) :
    phi m [(s, 0)] ≤ cellCount m * cellCount m := by
  have halook : ∀ c : Cell, alook [(s, (0:Nat))] c =
      if s = c then some 0 else none := by
    intro c
    rw [alook]
    split <;> rfl
  unfold phi
  calc ∑ c ∈ rangeSet m, phiCell m [(s, 0)] c
      ≤ ∑ _c ∈ rangeSet m, cellCount m := by
        apply Finset.sum_le_sum
        intro c _
        simp only [phiCell, halook c]
        by_cases hsc : s = c
        · rw [if_pos hsc]
          exact Nat.zero_le _
        · rw [if_neg hsc]
    _ = cellCount m * cellCount m := by
        rw [Finset.sum_const, rangeSet_card, smul_eq_mul]

/-- Full A* loop correctness: from any invariant state with enough fuel
the loop returns without error, and the final g-cost and parent maps
satisfy everything reconstruction needs; in particular the target's
g-cost is exactly the graph distance whenever the target is reachable. -/
theorem astarLoop_spec {m : Maze} {start target : Cell} :
    ∀ (fuel : Nat) (open_set : List AEntry) (g : List (Cell × Nat))
      (parent : List (Cell × Cell)),
      AInv m start target open_set g parent →
      phi m g + open_set.length < fuel →
      ∃ g2 parent2,
        m.astarLoop target fuel open_set g parent = some (g2, parent2) ∧
        AFinal m start target g2 parent2 := by
  intro fuel
  induction fuel with
  | zero =>
    intro open_set g parent _ hmeas
    exact absurd hmeas (by omega)
  | succ fuel ih =>
    intro open_set g parent inv hmeas
    have hsmall : ∀ c v, alook g c = some v → v + 1 ≤ cellCount m := by
      intro c v hv
      have h1 := inv.g_bound c v hv
      have h2 := gdom_le_cellCount inv.g_inRange
      omega
    match hpop : heappop open_set with
    | none =>
      have hempty : open_set = [] := heappop_none hpop
      refine ⟨g, parent, by simp [Maze.astarLoop, hpop], ?_⟩
      refine ⟨inv.g_reach, hsmall, inv.par_start, inv.par_iff, inv.par_g, ?_⟩
      intro n hmin
      rcases astar_frontier inv n hmin with h | ⟨f, y, hy, -⟩
      · exact h
      · rw [hempty] at hy
        exact absurd hy (List.not_mem_nil _)
    | some ((f0, current), rest) =>
      by_cases hct : current = target
      · refine ⟨g, parent, by simp [Maze.astarLoop, hpop, hct], ?_⟩
        refine ⟨inv.g_reach, hsmall, inv.par_start, inv.par_iff, inv.par_g, ?_⟩
        intro n hmin
        obtain ⟨hmem, hrest, hmin2, hlen⟩ := heappop_spec hpop
        obtain ⟨v, hv, hcase⟩ := inv.open_g f0 current hmem
        rw [hct] at hv
        have hnv : n ≤ v := hmin.2 v (inv.g_reach target v hv)
        rcases astar_frontier inv n hmin with h | ⟨f, y, hy, hfn⟩
        · exact h
        · have hpq := hmin2 (f, y) hy
          rw [← Bool.not_eq_true, pqLt_iff] at hpq
          push_neg at hpq
          have hf0f : f0 ≤ f := hpq.1
          rcases hcase with hle | ⟨hf00, hcs⟩
          · rw [hct] at hle
            have hman : manhattan target target = 0 := by
              simp [manhattan]
            have hveq : v = n := by omega
            rw [← hveq]
            exact hv
          · have hst : start = target := by
              rw [← hcs, hct]
            have hms : minReach m start start n := by
              nth_rewrite 2 [hst]
              exact hmin
            have hn0 : n = 0 := minReach_unique hms (minReach_self m start)
            rw [← hst, hn0]
            exact inv.g_start
      · obtain ⟨gc, hgc, q2, g2x, p2x, hfold, inv2, hdec⟩ :=
          astar_iterate inv hpop hct
        have hfold2 : (m.get_neighbours_ext current.1 current.2).foldl
            (astarStep target current gc) (rest, g, parent) =
            (q2, g2x, p2x) := hfold
        have hloopstep : m.astarLoop target (fuel + 1) open_set g parent =
            m.astarLoop target fuel q2 g2x p2x := by
          simp only [Maze.astarLoop, hpop, if_neg hct, hgc, hfold2]
        obtain ⟨g3, p3, hrun, hfin⟩ := ih q2 g2x p2x inv2 (by omega)
        exact ⟨g3, p3, by rw [hloopstep]; exact hrun, hfin⟩

/-- A* on a reachable goal: returns a path realising the graph
distance — the heuristic never costs optimality. -/
theorem shortest_path_ext_reachable {m : Maze} {s t : Cell}
    (hs : inRange m s) {n : Nat} (hreach : reachN m n s t) :
    ∃ p d, m.shortest_path_ext s t = some p ∧ minReach m s t d ∧
      p.head? = some s ∧ p.getLast? = some t ∧
      List.Chain' (fun a b => b ∈ nbrs m a) p ∧ p.length = d + 1 := by
  have hcc := cellCount_pos hs
  have hphi := phi_init_le m s
  have hmeas : phi m [(s, 0)] + [((0:Nat), s)].length < m.astarFuel := by
    unfold Maze.astarFuel
    rw [show m.width.toNat * m.height.toNat = cellCount m from rfl]
    simp only [List.length_singleton]
    omega
  obtain ⟨g2, p2, hloop, hfin⟩ :=
    astarLoop_spec m.astarFuel [(0, s)] [(s, 0)] [] (aInv_init m s t hs) hmeas
  obtain ⟨d, hd, -⟩ := exists_minReach hreach
  have hgt : alook g2 t = some d := hfin.target_dist d hd
  have hdcc : d + 1 ≤ cellCount m := hfin.g_small t d hgt
  have hfuel : d ≤ m.astarFuel := by
    unfold Maze.astarFuel
    have hcc2 : cellCount m = m.width.toNat * m.height.toNat := rfl
    omega
  obtain ⟨l, hrun, hhead, hlast, hchain, hlen⟩ :=
    achain hfin.par_iff hfin.par_g m.astarFuel t d hgt hfuel
  have hvp : ValidPath m s t l.reverse := by
    refine ⟨?_, ?_, ?_⟩
    · rw [List.head?_reverse]
      exact hlast
    · rw [List.getLast?_reverse]
      exact hhead
    · rw [List.chain'_reverse]
      exact hchain
  have hge : d + 1 ≤ l.reverse.length := hvp.length_ge hd
  have hlexact : l.length = d + 1 := by
    rw [List.length_reverse] at hge
    omega
  refine ⟨l.reverse, d, ?_, hd, hvp.1, hvp.2.1, hvp.2.2, by simp [hlexact]⟩
  unfold Maze.shortest_path_ext
  rw [hloop]
  simp only [hgt, hrun]

/-- A* on an unreachable goal: returns the empty path (the `goal not in
g_cost` branch of the source). -/
theorem shortest_path_ext_unreachable {m : Maze} {s t : Cell}
    (hs : inRange m s) (hunreach : ∀ n, ¬ reachN m n s t) :
    m.shortest_path_ext s t = some [] := by
  have hcc := cellCount_pos hs
  have hphi := phi_init_le m s
  have hmeas : phi m [(s, 0)] + [((0:Nat), s)].length < m.astarFuel := by
    unfold Maze.astarFuel
    rw [show m.width.toNat * m.height.toNat = cellCount m from rfl]
    simp only [List.length_singleton]
    omega
  obtain ⟨g2, p2, hloop, hfin⟩ :=
    astarLoop_spec m.astarFuel [(0, s)] [(s, 0)] [] (aInv_init m s t hs) hmeas
  have hnone : alook g2 t = none := by
    cases halt : alook g2 t with
    | none => rfl
    | some v => exact absurd (hfin.g_reach t v halt) (hunreach v)
  unfold Maze.shortest_path_ext
  rw [hloop]
  simp only [hnone]

/-! ## Claims C1, C2, C8 -/

/-- A list of cells that is closed under the open-neighbour relation and
contains the start but not the goal witnesses unreachability. -/
theorem unreach_of_closed {m : Maze} {L : List Cell} {s t : Cell}
    (hs : s ∈ L) (ht : t ∉ L)
    (hclosed : ∀ c ∈ L, ∀ u ∈ nbrs m c, u ∈ L) :
    ∀ n, ¬ reachN m n s t := by
  suffices h : ∀ (n : Nat) (c : Cell), c ∈ L → ¬ reachN m n c t by
    intro n
    exact h n s hs
  intro n
  induction n with
  | zero =>
    intro c hcL h
    rw [reachN_zero] at h
    exact ht (h ▸ hcL)
  | succ k ih =>
    intro c hcL h
    obtain ⟨u, hu, hr⟩ := reachN_succ.mp h
    exact ih u (hclosed c hcL u hu) hr

/-- C1: for every maze with positive dimensions and every in-range start
and goal joined by some wall-free path, both the BFS `shortest_path` of the
basic module and the A* `shortest_path` of the extension module return an
ordered sequence of cells from the start to the goal inclusive in which
every consecutive pair is wall-free adjacent, of minimum length among all
such sequences. -/
theorem claim_C1 {m : Maze} {s t : Cell}
    (hw : 0 < m.width) (hh : 0 < m.height)
    (hs : inRange m s) (ht : inRange m t)
    {p0 : List Cell} (hp0 : ValidPath m s t p0) :
    ∃ pb pa, m.shortest_path_basic s t = some pb ∧
      m.shortest_path_ext s t = some pa ∧
      ValidPath m s t pb ∧ ValidPath m s t pa ∧
      (∀ q, ValidPath m s t q → pb.length ≤ q.length) ∧
      (∀ q, ValidPath m s t q → pa.length ≤ q.length) := by
  have hreach := hp0.reachN
  obtain ⟨pb, d, hb, hdmin, hbh, hbl, hbc, hblen⟩ :=
    shortest_path_basic_reachable hs hreach
  obtain ⟨pa, d2, ha, hd2min, hah, hal, hac, halen⟩ :=
    shortest_path_ext_reachable hs hreach
  have hdd : d2 = d := minReach_unique hd2min hdmin
  refine ⟨pb, pa, hb, ha, ⟨hbh, hbl, hbc⟩, ⟨hah, hal, hac⟩, ?_, ?_⟩
  · intro q hq
    have := hq.length_ge hdmin
    omega
  · intro q hq
    have := hq.length_ge hdmin
    omega

theorem claim_C1_witness :
    ((0:Int) < Maze.width ⟨2, 2, [], []⟩ ∧
      (0:Int) < Maze.height ⟨2, 2, [], []⟩ ∧
      inRange ⟨2, 2, [], []⟩ ((0:Int), (0:Int)) ∧
      inRange ⟨2, 2, [], []⟩ ((1:Int), (1:Int)) ∧
      ValidPath ⟨2, 2, [], []⟩ (0, 0) (1, 1) [(0, 0), (0, 1), (1, 1)]) ∧
    (∃ pb pa,
      Maze.shortest_path_basic ⟨2, 2, [], []⟩ (0, 0) (1, 1) = some pb ∧
      Maze.shortest_path_ext ⟨2, 2, [], []⟩ (0, 0) (1, 1) = some pa ∧
      ValidPath ⟨2, 2, [], []⟩ (0, 0) (1, 1) pb ∧
      ValidPath ⟨2, 2, [], []⟩ (0, 0) (1, 1) pa ∧
      (∀ q, ValidPath ⟨2, 2, [], []⟩ (0, 0) (1, 1) q →
        pb.length ≤ q.length) ∧
      (∀ q, ValidPath ⟨2, 2, [], []⟩ (0, 0) (1, 1) q →
        pa.length ≤ q.length)) :=
  by
  have hvp : ValidPath ⟨2, 2, [], []⟩ (0, 0) (1, 1)
      [(0, 0), (0, 1), (1, 1)] :=
    ⟨rfl, rfl, List.chain'_cons.mpr ⟨by decide,
      List.chain'_cons.mpr ⟨by decide, List.chain'_singleton _⟩⟩⟩
  exact ⟨⟨by decide, by decide, by decide, by decide, hvp⟩,
    @claim_C1 ⟨2, 2, [], []⟩ (0, 0) (1, 1) (by decide) (by decide)
      (by decide) (by decide) [(0, 0), (0, 1), (1, 1)] hvp⟩

/-- C2: for every maze and every in-range start and goal, the BFS
`shortest_path` and the A* `shortest_path` both return normally, with
paths of equal length, and they return the empty sequence for exactly the
same combinations (both empty precisely when no path exists). -/
theorem claim_C2 {m : Maze} {s t : Cell} (hs : inRange m s)
    (ht : inRange m t) :
    ∃ pb pa, m.shortest_path_basic s t = some pb ∧
      m.shortest_path_ext s t = some pa ∧
      pb.length = pa.length ∧ (pb = [] ↔ pa = []) := by
  by_cases hr : ∃ n, reachN m n s t
  · obtain ⟨n, hn⟩ := hr
    obtain ⟨pb, d, hb, hdmin, hbh, hbl, hbc, hblen⟩ :=
      shortest_path_basic_reachable hs hn
    obtain ⟨pa, d2, ha, hd2min, hah, hal, hac, halen⟩ :=
      shortest_path_ext_reachable hs hn
    have hdd : d2 = d := minReach_unique hd2min hdmin
    refine ⟨pb, pa, hb, ha, by omega, ?_, ?_⟩
    · intro h
      exfalso
      rw [h] at hblen
      simp only [List.length_nil] at hblen
      omega
    · intro h
      exfalso
      rw [h] at halen
      simp only [List.length_nil] at halen
      omega
  · push_neg at hr
    exact ⟨[], [], shortest_path_basic_unreachable hs hr,
      shortest_path_ext_unreachable hs hr, rfl, Iff.rfl⟩

theorem claim_C2_witness :
    (inRange ⟨2, 2, [], []⟩ ((0:Int), (0:Int)) ∧
      inRange ⟨2, 2, [], []⟩ ((1:Int), (1:Int))) ∧
    (∃ pb pa,
      Maze.shortest_path_basic ⟨2, 2, [], []⟩ (0, 0) (1, 1) = some pb ∧
      Maze.shortest_path_ext ⟨2, 2, [], []⟩ (0, 0) (1, 1) = some pa ∧
      pb.length = pa.length ∧ (pb = [] ↔ pa = [])) :=
  ⟨⟨by decide, by decide⟩, claim_C2 (by decide) (by decide)⟩

/-- C8: when the goal is unreachable from the start, neither search
raises: the BFS `shortest_path` and the A* `shortest_path` both return
normally, and both return the empty sequence. -/
theorem claim_C8 {m : Maze} {s t : Cell} (hs : inRange m s)
    (hunreach : ∀ n, ¬ reachN m n s t) :
    m.shortest_path_basic s t = some [] ∧
    m.shortest_path_ext s t = some [] :=
  ⟨shortest_path_basic_unreachable hs hunreach,
    shortest_path_ext_unreachable hs hunreach⟩

theorem claim_C8_witness :
    (inRange ⟨3, 3, [(0, 1), (1, 1), (2, 1)], []⟩ ((0:Int), (0:Int)) ∧
      (∀ n, ¬ reachN ⟨3, 3, [(0, 1), (1, 1), (2, 1)], []⟩ n (0, 0) (0, 2))) ∧
    (Maze.shortest_path_basic ⟨3, 3, [(0, 1), (1, 1), (2, 1)], []⟩
        (0, 0) (0, 2) = some [] ∧
      Maze.shortest_path_ext ⟨3, 3, [(0, 1), (1, 1), (2, 1)], []⟩
        (0, 0) (0, 2) = some []) := by
  have hun : ∀ n, ¬ reachN ⟨3, 3, [(0, 1), (1, 1), (2, 1)], []⟩
      n (0, 0) (0, 2) :=
    unreach_of_closed (L := [(0, 0), (1, 0), (2, 0)])
      (by decide) (by decide) (by decide)
  exact ⟨⟨by decide, hun⟩, claim_C8 (by decide) hun⟩

end MazeRunner
